import Mathlib

/-!
Verification of the lazy-propagation range-max segment tree from
`handson-2/min-and-max/src/lib.rs`.

The Rust structure `SegmentTree { tree: Vec<i32>, upper_bound: usize, lazy: Vec<Option<i32>> }`
is embedded shallowly: `Vec<i32>` becomes `List Int`, `usize` becomes `Nat`,
array reads become `List.getD` (the reads are separately proven in bounds),
array writes become `List.set`.  Recursive methods are embedded with an explicit
fuel parameter so that they are structurally recursive and executable; every
lemma carries the hypothesis that the fuel exceeds the span `r - l` of the
node's range, which holds at every reachable call site (the public wrappers
pass `upper_bound + 1`).  The `assert!(left_query <= right_query)` at the top
of `update_query` and `max_query` (a Rust panic) is modelled by the public
wrappers returning `Option`: `none` models the panic.
-/

structure SegmentTree where
  tree : List Int
  upperBound : Nat
  lazy : List (Option Int)
deriving DecidableEq

namespace SegmentTree

/-- Read of `self.tree[i]`; the default is irrelevant at in-bound indices. -/
def treeAt (t : SegmentTree) (i : Nat) : Int :=
  t.tree.getD i 0

/-- Read of `self.lazy[i]`. -/
def lazyAt (t : SegmentTree) (i : Nat) : Option Int :=
  t.lazy.getD i none

/-- Write `self.tree[i] = v`. -/
def setTree (t : SegmentTree) (i : Nat) (v : Int) : SegmentTree :=
  { t with tree := t.tree.set i v }

/-- Write `self.lazy[i] = o`. -/
def setLazy (t : SegmentTree) (i : Nat) (o : Option Int) : SegmentTree :=
  { t with lazy := t.lazy.set i o }

/-- Source `SegmentTree::left`. -/
def leftChild (c : Nat) : Nat := 2 * c + 1

/-- Source `SegmentTree::right`. -/
def rightChild (c : Nat) : Nat := 2 * c + 2

/-- Source `SegmentTree::mid`: `left + (right - left) / 2`. -/
def midIdx (l r : Nat) : Nat := l + (r - l) / 2

/-- Source `SegmentTree::propagate`: discharge the pending value at node `c`
into `tree[c]` and, when the guard `c < tree.len() / 2 - 1` holds, queue it at
any child whose `tree` value exceeds it; finally clear `lazy[c]`. -/
def propagate (t : SegmentTree) (c : Nat) : SegmentTree :=
  match t.lazyAt c with
  | none => t
  | some v =>
    let t1 := t.setTree c v
    let t2 :=
      if c < t.tree.length / 2 - 1 then
        let ta := if v < t1.treeAt (leftChild c) then t1.setLazy (leftChild c) (some v) else t1
        if v < ta.treeAt (rightChild c) then ta.setLazy (rightChild c) (some v) else ta
      else t1
    t2.setLazy c none

/-- Source `SegmentTree::build`, with fuel.  A leaf stores the array element,
an internal node the max of its freshly built children. -/
def buildF : Nat → SegmentTree → List Int → Nat → Nat → Nat → SegmentTree
  | 0, t, _, _, _, _ => t
  | fuel + 1, t, nums, l, r, c =>
    if l = r then t.setTree c (nums.getD l 0)
    else if l < r then
      let m := midIdx l r
      let t1 := buildF fuel t nums l m (leftChild c)
      let t2 := buildF fuel t1 nums (m + 1) r (rightChild c)
      t2.setTree c (max (t2.treeAt (leftChild c)) (t2.treeAt (rightChild c)))
    else t

/-- Source `SegmentTree::new`.  `nums.len() - 1` underflows (panics) on an
empty vector, modelled by `none`; otherwise the tree gets `4 * n` slots
initialised to `-1` (`tree`) and `None` (`lazy`) and is built over `[0, n-1]`. -/
def new (nums : List Int) : Option SegmentTree :=
  match nums with
  | [] => none
  | _ :: _ =>
    let n := 4 * nums.length
    let t0 : SegmentTree :=
      { tree := List.replicate n (-1), upperBound := nums.length - 1,
        lazy := List.replicate n none }
    some (buildF nums.length t0 nums 0 (nums.length - 1) 0)

/-- Source `SegmentTree::update_query`, with fuel.  Propagates at the current
node, prunes on no overlap, on total overlap queues the clamp only when it
lowers the node's value (then discharges it at once), and on partial overlap
recurses into both children and recomputes the node from them. -/
def updateQueryF : Nat → SegmentTree → Nat → Nat → Nat → Nat → Nat → Int → SegmentTree
  | 0, t, _, _, _, _, _, _ => t
  | fuel + 1, t, c, lq, rq, l, r, v =>
    let t0 := propagate t c
    if r < lq ∨ rq < l then t0
    else if lq ≤ l ∧ r ≤ rq then
      if v < t0.treeAt c then propagate (t0.setLazy c (some v)) c else t0
    else
      let m := midIdx l r
      let t1 := updateQueryF fuel t0 (leftChild c) lq rq l m v
      let t2 := updateQueryF fuel t1 (rightChild c) lq rq (m + 1) r v
      t2.setTree c (max (t2.treeAt (leftChild c)) (t2.treeAt (rightChild c)))

/-- Source `SegmentTree::max_query`, with fuel.  Returns the answer together
with the mutated tree (propagation makes queries stateful). -/
def maxQueryF : Nat → SegmentTree → Nat → Nat → Nat → Nat → Nat → Int × SegmentTree
  | 0, t, _, _, _, _, _ => (-1, t)
  | fuel + 1, t, c, lq, rq, l, r =>
    let t0 := propagate t c
    if r < lq ∨ rq < l then (-1, t0)
    else if lq ≤ l ∧ r ≤ rq then (t0.treeAt c, t0)
    else
      let m := midIdx l r
      let p1 := maxQueryF fuel t0 (leftChild c) lq rq l m
      let p2 := maxQueryF fuel p1.2 (rightChild c) lq rq (m + 1) r
      (max p1.1 p2.1, p2.2)

/-- Body of source `SegmentTree::update` after its assertion succeeded. -/
def updateV (t : SegmentTree) (lq rq : Nat) (v : Int) : SegmentTree :=
  updateQueryF (t.upperBound + 1) t 0 lq rq 0 t.upperBound v

/-- Body of source `SegmentTree::max` after its assertion succeeded. -/
def maxV (t : SegmentTree) (lq rq : Nat) : Int × SegmentTree :=
  maxQueryF (t.upperBound + 1) t 0 lq rq 0 t.upperBound

/-- Source `SegmentTree::update`; `none` models the
`assert!(left_query <= right_query)` panic. -/
def update (t : SegmentTree) (lq rq : Nat) (v : Int) : Option SegmentTree :=
  if lq ≤ rq then some (t.updateV lq rq v) else none

/-- Source `SegmentTree::max`; `none` models the assertion panic. -/
def maxQ (t : SegmentTree) (lq rq : Nat) : Option (Int × SegmentTree) :=
  if lq ≤ rq then some (t.maxV lq rq) else none

end SegmentTree

/-! ### Generic list-access helpers -/

theorem getD_set_self {α : Type} (l : List α) (i : Nat) (a d : α) (h : i < l.length) :
    (l.set i a).getD i d = a := by
  simp [List.getD_eq_getElem?_getD, List.getElem?_set_self', List.getElem?_eq_getElem, h]

theorem getD_set_ne {α : Type} (l : List α) {i j : Nat} (a d : α) (h : i ≠ j) :
    (l.set i a).getD j d = l.getD j d := by
  simp [List.getD_eq_getElem?_getD, List.getElem?_set_ne h]

theorem getD_replicate {α : Type} (n i : Nat) (a d : α) (h : i < n) :
    (List.replicate n a).getD i d = a := by
  simp [List.getD_eq_getElem?_getD, List.getElem?_replicate, h]

/-! ### Range maximum of a function, `rmax f a b = max (f a) (f (a+1)) ... (f b)` -/

def rmaxUp (f : Nat → Int) (a : Nat) : Nat → Int
  | 0 => f a
  | s + 1 => max (rmaxUp f a s) (f (a + (s + 1)))

def rmax (f : Nat → Int) (a b : Nat) : Int := rmaxUp f a (b - a)

theorem rmax_single (f : Nat → Int) (a : Nat) : rmax f a a = f a := by
  simp [rmax, rmaxUp]

theorem le_rmaxUp (f : Nat → Int) (a : Nat) :
    ∀ s p, a ≤ p → p ≤ a + s → f p ≤ rmaxUp f a s := by
  intro s
  induction s with
  | zero =>
    intro p h1 h2
    have h3 : p = a := by omega
    subst h3
    exact le_refl _
  | succ s ih =>
    intro p h1 h2
    rcases Nat.lt_or_ge p (a + (s + 1)) with h | h
    · exact le_trans (ih p h1 (by omega)) (le_max_left _ _)
    · have h3 : p = a + (s + 1) := by omega
      subst h3
      exact le_max_right _ _

theorem le_rmax (f : Nat → Int) {a b p : Nat} (h1 : a ≤ p) (h2 : p ≤ b) :
    f p ≤ rmax f a b := by
  exact le_rmaxUp f a (b - a) p h1 (by omega)

theorem rmaxUp_le (f : Nat → Int) (a : Nat) {x : Int} :
    ∀ s, (∀ p, a ≤ p → p ≤ a + s → f p ≤ x) → rmaxUp f a s ≤ x := by
  intro s
  induction s with
  | zero => intro h; exact h a (le_refl _) (by omega)
  | succ s ih =>
    intro h
    exact max_le (ih fun p h1 h2 => h p h1 (by omega)) (h _ (by omega) (by omega))

theorem rmax_le (f : Nat → Int) {a b : Nat} {x : Int}
    (h : ∀ p, a ≤ p → p ≤ b → f p ≤ x) (hab : a ≤ b) : rmax f a b ≤ x := by
  refine rmaxUp_le f a (b - a) fun p h1 h2 => h p h1 (by omega)

theorem rmaxUp_congr (f g : Nat → Int) (a : Nat) :
    ∀ s, (∀ p, a ≤ p → p ≤ a + s → f p = g p) → rmaxUp f a s = rmaxUp g a s := by
  intro s
  induction s with
  | zero => intro h; exact h a (le_refl _) (by omega)
  | succ s ih =>
    intro h
    simp only [rmaxUp]
    rw [ih fun p h1 h2 => h p h1 (by omega), h (a + (s + 1)) (by omega) (by omega)]

theorem rmax_congr (f g : Nat → Int) {a b : Nat} (hab : a ≤ b)
    (h : ∀ p, a ≤ p → p ≤ b → f p = g p) : rmax f a b = rmax g a b := by
  refine rmaxUp_congr f g a (b - a) fun p h1 h2 => h p h1 (by omega)

theorem rmax_mono (f g : Nat → Int) {a b : Nat} (hab : a ≤ b)
    (h : ∀ p, a ≤ p → p ≤ b → f p ≤ g p) : rmax f a b ≤ rmax g a b :=
  rmax_le f (fun p h1 h2 => le_trans (h p h1 h2) (le_rmax g h1 h2)) hab

theorem rmaxUp_min_distrib (f : Nat → Int) (v : Int) (a : Nat) :
    ∀ s, rmaxUp (fun p => min v (f p)) a s = min v (rmaxUp f a s) := by
  intro s
  induction s with
  | zero => rfl
  | succ s ih =>
    simp only [rmaxUp, ih]
    rw [min_max_distrib_left]

theorem rmax_min_distrib (f : Nat → Int) (v : Int) (a b : Nat) :
    rmax (fun p => min v (f p)) a b = min v (rmax f a b) :=
  rmaxUp_min_distrib f v a (b - a)

theorem rmax_split (f : Nat → Int) {a m b : Nat} (h1 : a ≤ m) (h2 : m < b) :
    rmax f a b = max (rmax f a m) (rmax f (m + 1) b) := by
  have key : ∀ k u, rmaxUp f a (u + 1 + k) = max (rmaxUp f a u) (rmaxUp f (a + u + 1) k) := by
    intro k
    induction k with
    | zero =>
      intro u
      simp only [rmaxUp, Nat.add_zero]
      rw [Nat.add_assoc]
    | succ k ih =>
      intro u
      have e1 : u + 1 + (k + 1) = (u + 1 + k) + 1 := by omega
      rw [e1]
      show max (rmaxUp f a (u + 1 + k)) (f (a + (u + 1 + k + 1))) = _
      rw [ih u, max_assoc]
      have e2 : a + (u + 1 + k + 1) = a + u + 1 + (k + 1) := by omega
      simp only [rmaxUp, e2]
  have e3 : b - a = (m - a) + 1 + (b - m - 1) := by omega
  have e4 : a + (m - a) + 1 = m + 1 := by omega
  unfold rmax
  rw [e3, key (b - m - 1) (m - a), e4]
  have e5 : b - m - 1 = b - (m + 1) := by omega
  rw [e5]

/-! ### Abstraction: the logical array content of a subtree -/

namespace SegmentTree

/-- Value of a position under an optional pending clamp. -/
def capOpt : Option Int → Int → Int
  | none, x => x
  | some v, x => min v x

/-- Effective aggregate of a node: its stored value clamped by its own pending
instruction. -/
def eff (t : SegmentTree) (c : Nat) : Int := capOpt (t.lazyAt c) (t.treeAt c)

/-- Logical value of array position `p`, read from the subtree rooted at node
`c` covering `[l, r]`: descend to the leaf of `p`, applying every pending
clamp on the way down. -/
def absAt : Nat → SegmentTree → Nat → Nat → Nat → Nat → Int
  | 0, t, c, _, _, _ => t.treeAt c
  | fuel + 1, t, c, l, r, p =>
    if l = r then capOpt (t.lazyAt c) (t.treeAt c)
    else if l < r then
      capOpt (t.lazyAt c)
        (if p ≤ midIdx l r then absAt fuel t (leftChild c) l (midIdx l r) p
         else absAt fuel t (rightChild c) (midIdx l r + 1) r p)
    else t.treeAt c

/-- Representation invariant of the subtree rooted at `c` covering `[l, r]`:
a pending value never exceeds the stored value, an internal node stores the
max of its children's effective values, and a child's pending value is never
below its parent's stored value. -/
def Inv : Nat → SegmentTree → Nat → Nat → Nat → Prop
  | 0, _, _, _, _ => True
  | fuel + 1, t, c, l, r =>
    (∀ v, t.lazyAt c = some v → v ≤ t.treeAt c) ∧
    (l < r →
      t.treeAt c = max (eff t (leftChild c)) (eff t (rightChild c)) ∧
      (∀ w, t.lazyAt (leftChild c) = some w → t.treeAt c ≤ w) ∧
      (∀ w, t.lazyAt (rightChild c) = some w → t.treeAt c ≤ w) ∧
      Inv fuel t (leftChild c) l (midIdx l r) ∧
      Inv fuel t (rightChild c) (midIdx l r + 1) r)

end SegmentTree

/-! ### Heap-index descendant relation (for framing) -/

/-- Parent index in the implicit heap layout. -/
def par (j : Nat) : Nat := (j - 1) / 2

/-- Index `j` lies in the implicit-heap subtree rooted at index `c`. -/
def isDesc (c j : Nat) : Prop := ∃ d, par^[d] j = c

theorem par_le (j : Nat) : par j ≤ j := by unfold par; omega

theorem iterate_par_le (d j : Nat) : par^[d] j ≤ j := by
  induction d with
  | zero => exact le_refl _
  | succ d ih =>
    rw [Function.iterate_succ_apply' par d j]
    exact le_trans (par_le _) ih

theorem par_leftChild (c : Nat) : par (SegmentTree.leftChild c) = c := by
  unfold par SegmentTree.leftChild; omega

theorem par_rightChild (c : Nat) : par (SegmentTree.rightChild c) = c := by
  unfold par SegmentTree.rightChild; omega

theorem isDesc_refl (c : Nat) : isDesc c c := ⟨0, rfl⟩

theorem isDesc_le {c j : Nat} (h : isDesc c j) : c ≤ j := by
  obtain ⟨d, hd⟩ := h
  calc c = par^[d] j := hd.symm
  _ ≤ j := iterate_par_le d j

theorem isDesc_left {c j : Nat} (h : isDesc (SegmentTree.leftChild c) j) : isDesc c j := by
  obtain ⟨d, hd⟩ := h
  exact ⟨d + 1, by rw [Function.iterate_succ_apply' par d j, hd, par_leftChild]⟩

theorem isDesc_right {c j : Nat} (h : isDesc (SegmentTree.rightChild c) j) : isDesc c j := by
  obtain ⟨d, hd⟩ := h
  exact ⟨d + 1, by rw [Function.iterate_succ_apply' par d j, hd, par_rightChild]⟩

theorem isDesc_leftChild (c : Nat) : isDesc c (SegmentTree.leftChild c) :=
  ⟨1, par_leftChild c⟩

theorem isDesc_rightChild (c : Nat) : isDesc c (SegmentTree.rightChild c) :=
  ⟨1, par_rightChild c⟩

theorem not_isDesc_of_lt {c j : Nat} (h : j < c) : ¬ isDesc c j :=
  fun hd => absurd (isDesc_le hd) (by omega)

theorem iterate_par_succ_le (k x : Nat) : par^[k + 1] x ≤ par x := by
  rw [Function.iterate_succ_apply par k x]
  exact iterate_par_le k (par x)

theorem isDesc_children_disjoint {c j : Nat}
    (h1 : isDesc (SegmentTree.leftChild c) j) (h2 : isDesc (SegmentTree.rightChild c) j) :
    False := by
  obtain ⟨d1, hd1⟩ := h1
  obtain ⟨d2, hd2⟩ := h2
  rcases Nat.lt_trichotomy d1 d2 with h | h | h
  · have e : d2 = (d2 - d1 - 1 + 1) + d1 := by omega
    rw [e, Function.iterate_add_apply par _ d1 j, hd1] at hd2
    have hle := iterate_par_succ_le (d2 - d1 - 1) (SegmentTree.leftChild c)
    rw [hd2, par_leftChild c] at hle
    unfold SegmentTree.rightChild at hle
    omega
  · rw [h] at hd1
    rw [hd1] at hd2
    unfold SegmentTree.leftChild SegmentTree.rightChild at hd2
    omega
  · have e : d1 = (d1 - d2 - 1 + 1) + d2 := by omega
    rw [e, Function.iterate_add_apply par _ d2 j, hd2] at hd1
    have hle := iterate_par_succ_le (d1 - d2 - 1) (SegmentTree.rightChild c)
    rw [hd1, par_rightChild c] at hle
    unfold SegmentTree.leftChild at hle
    omega

/-! ### Index bounds: the `4 * n` slot margin -/

/-- The implicit-heap subtree rooted at index `c` for a range of span `r - l`
fits below slot `4 * n`: all of its node indices `j` satisfy
`j + 2 ≤ (c + 2) * 2 ^ ceil(log2 (span + 1))`. -/
def fits (n c l r : Nat) : Prop :=
  (c + 2) * 2 ^ Nat.clog 2 (r - l + 1) ≤ 4 * n

theorem clog_le_of_ge_two {n : Nat} (hn : 2 ≤ n) : 2 ^ Nat.clog 2 n ≤ 2 * n - 2 := by
  have h1 : 2 ^ (Nat.clog 2 n - 1) < n := Nat.pow_pred_clog_lt_self (by norm_num) (by omega)
  have h2 : 0 < Nat.clog 2 n := Nat.clog_pos (by norm_num) (by omega)
  have h3 : 2 ^ Nat.clog 2 n = 2 * 2 ^ (Nat.clog 2 n - 1) := by
    conv_lhs => rw [show Nat.clog 2 n = (Nat.clog 2 n - 1) + 1 by omega]
    ring
  omega

theorem clog_succ_half {s : Nat} (hs : 1 ≤ s) :
    Nat.clog 2 (s + 1) = Nat.clog 2 (s / 2 + 1) + 1 := by
  rw [Nat.clog_of_two_le (by norm_num) (by omega)]
  have h : (s + 1 + 2 - 1) / 2 = s / 2 + 1 := by omega
  rw [h]

theorem fits_root {n : Nat} (hn : 1 ≤ n) : fits n 0 0 (n - 1) := by
  unfold fits
  have e : n - 1 - 0 + 1 = n := by omega
  rw [e]
  rcases Nat.lt_or_ge n 2 with h | h
  · have e1 : n = 1 := by omega
    subst e1
    simp [Nat.clog]
  · have := clog_le_of_ge_two h
    omega

theorem fits_pos {n c l r : Nat} (h : fits n c l r) : 1 ≤ n := by
  unfold fits at h
  have h1 : 1 ≤ 2 ^ Nat.clog 2 (r - l + 1) := Nat.one_le_two_pow
  nlinarith

theorem fits_idx_lt {n c l r : Nat} (h : fits n c l r) : c < 4 * n := by
  unfold fits at h
  have h1 : 1 ≤ 2 ^ Nat.clog 2 (r - l + 1) := Nat.one_le_two_pow
  nlinarith

theorem fits_left {n c l r : Nat} (hlr : l < r) (h : fits n c l r) :
    fits n (SegmentTree.leftChild c) l (SegmentTree.midIdx l r) := by
  unfold fits at h ⊢
  unfold SegmentTree.leftChild SegmentTree.midIdx
  have hs : 1 ≤ r - l := by omega
  rw [clog_succ_half hs, pow_succ] at h
  have e : l + (r - l) / 2 - l + 1 = (r - l) / 2 + 1 := by omega
  rw [e]
  nlinarith [Nat.one_le_two_pow (n := Nat.clog 2 ((r - l) / 2 + 1))]

theorem fits_right {n c l r : Nat} (hlr : l < r) (h : fits n c l r) :
    fits n (SegmentTree.rightChild c) (SegmentTree.midIdx l r + 1) r := by
  unfold fits at h ⊢
  unfold SegmentTree.rightChild SegmentTree.midIdx
  have hs : 1 ≤ r - l := by omega
  rw [clog_succ_half hs, pow_succ] at h
  have e : r - (l + (r - l) / 2 + 1) + 1 = r - l - (r - l) / 2 := by omega
  rw [e]
  have hm : r - l - (r - l) / 2 ≤ (r - l) / 2 + 1 := by omega
  have hmono : 2 ^ Nat.clog 2 (r - l - (r - l) / 2) ≤ 2 ^ Nat.clog 2 ((r - l) / 2 + 1) :=
    Nat.pow_le_pow_right (by norm_num) (Nat.clog_mono_right 2 hm)
  nlinarith

theorem fits_guard {n c l r : Nat} (hlr : l < r) (h : fits n c l r) :
    c < 4 * n / 2 - 1 := by
  have hn := fits_pos h
  unfold fits at h
  have hs : 2 ≤ r - l + 1 := by omega
  have h2 : 1 ≤ Nat.clog 2 (r - l + 1) := Nat.clog_pos (by norm_num) hs
  have h3 : 2 ≤ 2 ^ Nat.clog 2 (r - l + 1) := by
    calc 2 = 2 ^ 1 := by norm_num
    _ ≤ 2 ^ Nat.clog 2 (r - l + 1) := Nat.pow_le_pow_right (by norm_num) h2
  have h4 : (c + 2) * 2 ≤ 4 * n := le_trans (Nat.mul_le_mul_left _ h3) h
  omega

/-- Node indices visited by the recursive range splitting over `[l, r]`
starting from heap slot `c` (the recursion pattern shared by `build`,
`update_query` and `max_query`). -/
def nodeIndicesF : Nat → Nat → Nat → Nat → List Nat
  | 0, _, _, _ => []
  | fuel + 1, l, r, c =>
    if l = r then [c]
    else if l < r then
      c :: (nodeIndicesF fuel l (SegmentTree.midIdx l r) (SegmentTree.leftChild c) ++
            nodeIndicesF fuel (SegmentTree.midIdx l r + 1) r (SegmentTree.rightChild c))
    else []

theorem nodeIndicesF_bound {n : Nat} :
    ∀ fuel c l r, fits n c l r → ∀ j ∈ nodeIndicesF fuel l r c, j < 4 * n := by
  intro fuel
  induction fuel with
  | zero => intro c l r _ j hj; simp [nodeIndicesF] at hj
  | succ fuel ih =>
    intro c l r hfits j hj
    unfold nodeIndicesF at hj
    by_cases h1 : l = r
    · simp [h1] at hj
      subst hj
      exact fits_idx_lt hfits
    · by_cases h2 : l < r
      · simp [h1, h2] at hj
        rcases hj with hj | hj | hj
        · subst hj; exact fits_idx_lt hfits
        · exact ih _ _ _ (fits_left h2 hfits) j hj
        · exact ih _ _ _ (fits_right h2 hfits) j hj
      · simp [h1, h2] at hj

/-! ### Recursion-tree nodes reached from the root -/

/-- Triples `(c, l, r)` of the recursion tree over `[0, n-1]`: heap slot `c`
covers `[l, r]`. -/
inductive RTNode (n : Nat) : Nat → Nat → Nat → Prop
  | root : RTNode n 0 0 (n - 1)
  | left {c l r} : RTNode n c l r → l < r →
      RTNode n (SegmentTree.leftChild c) l (SegmentTree.midIdx l r)
  | right {c l r} : RTNode n c l r → l < r →
      RTNode n (SegmentTree.rightChild c) (SegmentTree.midIdx l r + 1) r

/-- Maximum of a list of integers, `0` on the empty list. -/
def listMax : List Int → Int
  | [] => 0
  | a :: l => l.foldl max a

/-! ### Shape preservation -/

namespace SegmentTree

theorem setTree_shape (t : SegmentTree) (i : Nat) (v : Int) :
    (t.setTree i v).tree.length = t.tree.length ∧
    (t.setTree i v).lazy.length = t.lazy.length ∧
    (t.setTree i v).upperBound = t.upperBound := by
  simp [setTree]

theorem setLazy_shape (t : SegmentTree) (i : Nat) (o : Option Int) :
    (t.setLazy i o).tree.length = t.tree.length ∧
    (t.setLazy i o).lazy.length = t.lazy.length ∧
    (t.setLazy i o).upperBound = t.upperBound := by
  simp [setLazy]

theorem tree_setLazy (t : SegmentTree) (i : Nat) (o : Option Int) :
    (t.setLazy i o).tree = t.tree := rfl

theorem lazy_setTree (t : SegmentTree) (i : Nat) (v : Int) :
    (t.setTree i v).lazy = t.lazy := rfl

theorem lazy_setLazy (t : SegmentTree) (i : Nat) (o : Option Int) :
    (t.setLazy i o).lazy = t.lazy.set i o := rfl

theorem tree_setTree (t : SegmentTree) (i : Nat) (v : Int) :
    (t.setTree i v).tree = t.tree.set i v := rfl

theorem ub_setLazy (t : SegmentTree) (i : Nat) (o : Option Int) :
    (t.setLazy i o).upperBound = t.upperBound := rfl

theorem ub_setTree (t : SegmentTree) (i : Nat) (v : Int) :
    (t.setTree i v).upperBound = t.upperBound := rfl

theorem propagate_shape (t : SegmentTree) (c : Nat) :
    (propagate t c).tree.length = t.tree.length ∧
    (propagate t c).lazy.length = t.lazy.length ∧
    (propagate t c).upperBound = t.upperBound := by
  unfold propagate
  cases t.lazyAt c with
  | none => exact ⟨rfl, rfl, rfl⟩
  | some v =>
    dsimp only
    refine ⟨?_, ?_, ?_⟩ <;>
      · split_ifs <;>
          simp [tree_setLazy, lazy_setTree, lazy_setLazy, tree_setTree, ub_setLazy, ub_setTree]

theorem updateQueryF_shape :
    ∀ fuel t c lq rq l r v,
      (updateQueryF fuel t c lq rq l r v).tree.length = t.tree.length ∧
      (updateQueryF fuel t c lq rq l r v).lazy.length = t.lazy.length ∧
      (updateQueryF fuel t c lq rq l r v).upperBound = t.upperBound := by
  intro fuel
  induction fuel with
  | zero => intro t c lq rq l r v; exact ⟨rfl, rfl, rfl⟩
  | succ fuel ih =>
    intro t c lq rq l r v
    unfold updateQueryF
    dsimp only
    have hp := propagate_shape t c
    split_ifs with h1 h2 h3
    · exact hp
    · have hs := setLazy_shape (propagate t c) c (some v)
      have hp2 := propagate_shape ((propagate t c).setLazy c (some v)) c
      exact ⟨by rw [hp2.1, hs.1, hp.1], by rw [hp2.2.1, hs.2.1, hp.2.1],
             by rw [hp2.2.2, hs.2.2, hp.2.2]⟩
    · exact hp
    · have i1 := ih (propagate t c) (leftChild c) lq rq l (midIdx l r) v
      have i2 := ih (updateQueryF fuel (propagate t c) (leftChild c) lq rq l (midIdx l r) v)
        (rightChild c) lq rq (midIdx l r + 1) r v
      refine ⟨?_, ?_, ?_⟩
      · rw [tree_setTree, List.length_set, i2.1, i1.1, hp.1]
      · rw [lazy_setTree, i2.2.1, i1.2.1, hp.2.1]
      · rw [ub_setTree, i2.2.2, i1.2.2, hp.2.2]

theorem maxQueryF_shape :
    ∀ fuel t c lq rq l r,
      (maxQueryF fuel t c lq rq l r).2.tree.length = t.tree.length ∧
      (maxQueryF fuel t c lq rq l r).2.lazy.length = t.lazy.length ∧
      (maxQueryF fuel t c lq rq l r).2.upperBound = t.upperBound := by
  intro fuel
  induction fuel with
  | zero => intro t c lq rq l r; exact ⟨rfl, rfl, rfl⟩
  | succ fuel ih =>
    intro t c lq rq l r
    unfold maxQueryF
    dsimp only
    have hp := propagate_shape t c
    split_ifs with h1 h2
    · exact hp
    · exact hp
    · have i1 := ih (propagate t c) (leftChild c) lq rq l (midIdx l r)
      have i2 := ih (maxQueryF fuel (propagate t c) (leftChild c) lq rq l (midIdx l r)).2
        (rightChild c) lq rq (midIdx l r + 1) r
      exact ⟨by rw [i2.1, i1.1, hp.1], by rw [i2.2.1, i1.2.1, hp.2.1],
             by rw [i2.2.2, i1.2.2, hp.2.2]⟩

theorem buildF_shape :
    ∀ fuel t nums l r c,
      (buildF fuel t nums l r c).tree.length = t.tree.length ∧
      (buildF fuel t nums l r c).lazy.length = t.lazy.length ∧
      (buildF fuel t nums l r c).upperBound = t.upperBound := by
  intro fuel
  induction fuel with
  | zero => intro t nums l r c; exact ⟨rfl, rfl, rfl⟩
  | succ fuel ih =>
    intro t nums l r c
    unfold buildF
    dsimp only
    split_ifs with h1 h2
    · exact ⟨by rw [tree_setTree, List.length_set], rfl, rfl⟩
    · have i1 := ih t nums l (midIdx l r) (leftChild c)
      have i2 := ih (buildF fuel t nums l (midIdx l r) (leftChild c)) nums
        (midIdx l r + 1) r (rightChild c)
      refine ⟨?_, ?_, ?_⟩
      · rw [tree_setTree, List.length_set, i2.1, i1.1]
      · rw [lazy_setTree, i2.2.1, i1.2.1]
      · rw [ub_setTree, i2.2.2, i1.2.2]
    · exact ⟨rfl, rfl, rfl⟩

end SegmentTree

/-! ### Pointwise behaviour of the write operations and of `propagate` -/

namespace SegmentTree

theorem treeAt_setTree_self {t : SegmentTree} {i : Nat} (v : Int) (h : i < t.tree.length) :
    (t.setTree i v).treeAt i = v := by
  unfold setTree treeAt
  exact getD_set_self _ _ _ _ h

theorem treeAt_setTree_ne {t : SegmentTree} {i j : Nat} (v : Int) (h : i ≠ j) :
    (t.setTree i v).treeAt j = t.treeAt j := by
  unfold setTree treeAt
  exact getD_set_ne _ _ _ h

theorem lazyAt_setLazy_self {t : SegmentTree} {i : Nat} (o : Option Int) (h : i < t.lazy.length) :
    (t.setLazy i o).lazyAt i = o := by
  unfold setLazy lazyAt
  exact getD_set_self _ _ _ _ h

theorem lazyAt_setLazy_ne {t : SegmentTree} {i j : Nat} (o : Option Int) (h : i ≠ j) :
    (t.setLazy i o).lazyAt j = t.lazyAt j := by
  unfold setLazy lazyAt
  exact getD_set_ne _ _ _ h

theorem treeAt_setLazy (t : SegmentTree) (i j : Nat) (o : Option Int) :
    (t.setLazy i o).treeAt j = t.treeAt j := rfl

theorem lazyAt_setTree (t : SegmentTree) (i j : Nat) (v : Int) :
    (t.setTree i v).lazyAt j = t.lazyAt j := rfl

theorem lazyAt_some_lt {t : SegmentTree} {c : Nat} {v : Int} (h : t.lazyAt c = some v) :
    c < t.lazy.length := by
  by_contra hc
  rw [lazyAt, List.getD_eq_default _ _ (by omega)] at h
  exact Option.noConfusion h

theorem propagate_eq_of_none {t : SegmentTree} {c : Nat} (h : t.lazyAt c = none) :
    propagate t c = t := by
  unfold propagate
  rw [h]

theorem propagate_treeAt_self {t : SegmentTree} {c : Nat} (hc : c < t.tree.length) :
    (propagate t c).treeAt c = (t.lazyAt c).getD (t.treeAt c) := by
  unfold propagate
  cases h : t.lazyAt c with
  | none => rfl
  | some v =>
    dsimp only [Option.getD]
    rw [treeAt_setLazy]
    split_ifs with h1 h2 h3 h4
    · rw [treeAt_setLazy, treeAt_setLazy]
      exact treeAt_setTree_self v hc
    · rw [treeAt_setLazy]
      exact treeAt_setTree_self v hc
    · rw [treeAt_setLazy]
      exact treeAt_setTree_self v hc
    · exact treeAt_setTree_self v hc
    · exact treeAt_setTree_self v hc

theorem propagate_lazyAt_self (t : SegmentTree) (c : Nat) :
    (propagate t c).lazyAt c = none := by
  unfold propagate
  cases h : t.lazyAt c with
  | none => exact h
  | some v =>
    dsimp only
    have hlen : c < t.lazy.length := lazyAt_some_lt h
    have hstep : ∀ t' : SegmentTree, t'.lazy.length = t.lazy.length →
        (t'.setLazy c none).lazyAt c = none := by
      intro t' ht'
      exact lazyAt_setLazy_self none (by omega)
    split_ifs with h1 h2 h3 h4
    · exact hstep _ (by simp [setLazy, setTree])
    · exact hstep _ (by simp [setLazy, setTree])
    · exact hstep _ (by simp [setLazy, setTree])
    · exact hstep _ (by simp [setTree])
    · exact hstep _ (by simp [setTree])

/-- Canonical form of `propagate` when a pending value is present and the
child guard holds; the push conditions are phrased on the original state. -/
theorem propagate_eq_some_guard {t : SegmentTree} {c : Nat} {v : Int}
    (hv : t.lazyAt c = some v) (hg : c < t.tree.length / 2 - 1) :
    propagate t c =
      ((if v < t.treeAt (rightChild c) then
          (if v < t.treeAt (leftChild c) then
            (t.setTree c v).setLazy (leftChild c) (some v)
           else t.setTree c v).setLazy (rightChild c) (some v)
        else
          (if v < t.treeAt (leftChild c) then
            (t.setTree c v).setLazy (leftChild c) (some v)
           else t.setTree c v)).setLazy c none) := by
  unfold propagate
  rw [hv]
  dsimp only
  rw [if_pos hg]
  have hlc : (t.setTree c v).treeAt (leftChild c) = t.treeAt (leftChild c) :=
    treeAt_setTree_ne v (by unfold leftChild; omega)
  rw [hlc]
  by_cases hA : v < t.treeAt (leftChild c)
  · rw [if_pos hA]
    have hrc : ((t.setTree c v).setLazy (leftChild c) (some v)).treeAt (rightChild c) =
        t.treeAt (rightChild c) := by
      rw [treeAt_setLazy]
      exact treeAt_setTree_ne v (by unfold rightChild; omega)
    rw [hrc]
  · rw [if_neg hA]
    have hrc : (t.setTree c v).treeAt (rightChild c) = t.treeAt (rightChild c) :=
      treeAt_setTree_ne v (by unfold rightChild; omega)
    rw [hrc]

/-- Canonical form of `propagate` when a pending value is present but the
child guard fails. -/
theorem propagate_eq_some_noguard {t : SegmentTree} {c : Nat} {v : Int}
    (hv : t.lazyAt c = some v) (hg : ¬ c < t.tree.length / 2 - 1) :
    propagate t c = (t.setTree c v).setLazy c none := by
  unfold propagate
  rw [hv]
  dsimp only
  rw [if_neg hg]

theorem propagate_treeAt_ne {t : SegmentTree} {c j : Nat} (h : j ≠ c) :
    (propagate t c).treeAt j = t.treeAt j := by
  cases hl : t.lazyAt c with
  | none => rw [propagate_eq_of_none hl]
  | some v =>
    by_cases hg : c < t.tree.length / 2 - 1
    · rw [propagate_eq_some_guard hl hg, treeAt_setLazy]
      by_cases hB : v < t.treeAt (rightChild c) <;>
        by_cases hA : v < t.treeAt (leftChild c) <;>
          simp only [if_pos, if_neg, hA, hB, if_true, if_false, treeAt_setLazy] <;>
            exact treeAt_setTree_ne v (Ne.symm h)
    · rw [propagate_eq_some_noguard hl hg, treeAt_setLazy]
      exact treeAt_setTree_ne v (Ne.symm h)

theorem propagate_lazyAt_ne {t : SegmentTree} {c j : Nat} (h1 : j ≠ c)
    (h2 : j ≠ leftChild c) (h3 : j ≠ rightChild c) :
    (propagate t c).lazyAt j = t.lazyAt j := by
  cases hl : t.lazyAt c with
  | none => rw [propagate_eq_of_none hl]
  | some v =>
    by_cases hg : c < t.tree.length / 2 - 1
    · rw [propagate_eq_some_guard hl hg, lazyAt_setLazy_ne _ (Ne.symm h1)]
      by_cases hB : v < t.treeAt (rightChild c) <;>
        by_cases hA : v < t.treeAt (leftChild c) <;>
          simp only [hA, hB, if_true, if_false] <;>
            first
            | rw [lazyAt_setLazy_ne _ (Ne.symm h3), lazyAt_setLazy_ne _ (Ne.symm h2),
                lazyAt_setTree]
            | rw [lazyAt_setLazy_ne _ (Ne.symm h3), lazyAt_setTree]
            | rw [lazyAt_setLazy_ne _ (Ne.symm h2), lazyAt_setTree]
            | rw [lazyAt_setTree]
    · rw [propagate_eq_some_noguard hl hg, lazyAt_setLazy_ne _ (Ne.symm h1), lazyAt_setTree]

theorem propagate_lazyAt_left {t : SegmentTree} {c : Nat} {v : Int}
    (hv : t.lazyAt c = some v) (hg : c < t.tree.length / 2 - 1)
    (hlc : leftChild c < t.lazy.length) :
    (propagate t c).lazyAt (leftChild c) =
      if v < t.treeAt (leftChild c) then some v else t.lazyAt (leftChild c) := by
  have hne : leftChild c ≠ c := by unfold leftChild; omega
  have hner : leftChild c ≠ rightChild c := by unfold leftChild rightChild; omega
  rw [propagate_eq_some_guard hv hg, lazyAt_setLazy_ne _ (Ne.symm hne)]
  by_cases hB : v < t.treeAt (rightChild c) <;>
    by_cases hA : v < t.treeAt (leftChild c) <;>
      simp only [hA, hB, if_true, if_false]
  · rw [lazyAt_setLazy_ne _ (Ne.symm hner)]
    exact lazyAt_setLazy_self _ (by rw [lazy_setTree]; omega)
  · rw [lazyAt_setLazy_ne _ (Ne.symm hner), lazyAt_setTree]
  · exact lazyAt_setLazy_self _ (by rw [lazy_setTree]; omega)
  · rw [lazyAt_setTree]

theorem propagate_lazyAt_right {t : SegmentTree} {c : Nat} {v : Int}
    (hv : t.lazyAt c = some v) (hg : c < t.tree.length / 2 - 1)
    (hrc : rightChild c < t.lazy.length) :
    (propagate t c).lazyAt (rightChild c) =
      if v < t.treeAt (rightChild c) then some v else t.lazyAt (rightChild c) := by
  have hne : rightChild c ≠ c := by unfold rightChild; omega
  have hnel : rightChild c ≠ leftChild c := by unfold leftChild rightChild; omega
  rw [propagate_eq_some_guard hv hg, lazyAt_setLazy_ne _ (Ne.symm hne)]
  by_cases hB : v < t.treeAt (rightChild c) <;>
    by_cases hA : v < t.treeAt (leftChild c) <;>
      simp only [hA, hB, if_true, if_false]
  · refine lazyAt_setLazy_self _ ?_
    rw [lazy_setLazy, List.length_set, lazy_setTree]
    omega
  · refine lazyAt_setLazy_self _ ?_
    rw [lazy_setTree]
    omega
  · rw [lazyAt_setLazy_ne _ (Ne.symm hnel), lazyAt_setTree]
  · rw [lazyAt_setTree]

end SegmentTree

/-! ### Congruence: `absAt` and `Inv` only read the subtree of their root -/

namespace SegmentTree

theorem absAt_succ (G : Nat) (t : SegmentTree) (c l r p : Nat) :
    absAt (G + 1) t c l r p =
      if l = r then capOpt (t.lazyAt c) (t.treeAt c)
      else if l < r then
        capOpt (t.lazyAt c)
          (if p ≤ midIdx l r then absAt G t (leftChild c) l (midIdx l r) p
           else absAt G t (rightChild c) (midIdx l r + 1) r p)
      else t.treeAt c := rfl

theorem Inv_succ (G : Nat) (t : SegmentTree) (c l r : Nat) :
    Inv (G + 1) t c l r ↔
      ((∀ v, t.lazyAt c = some v → v ≤ t.treeAt c) ∧
       (l < r →
         t.treeAt c = max (eff t (leftChild c)) (eff t (rightChild c)) ∧
         (∀ w, t.lazyAt (leftChild c) = some w → t.treeAt c ≤ w) ∧
         (∀ w, t.lazyAt (rightChild c) = some w → t.treeAt c ≤ w) ∧
         Inv G t (leftChild c) l (midIdx l r) ∧
         Inv G t (rightChild c) (midIdx l r + 1) r)) := Iff.rfl

/-- Agreement of two trees on every index of the heap subtree rooted at `c`. -/
def AgreeOn (t1 t2 : SegmentTree) (c : Nat) : Prop :=
  ∀ j, isDesc c j → t1.treeAt j = t2.treeAt j ∧ t1.lazyAt j = t2.lazyAt j

theorem AgreeOn.left {t1 t2 : SegmentTree} {c : Nat} (h : AgreeOn t1 t2 c) :
    AgreeOn t1 t2 (leftChild c) :=
  fun j hj => h j (isDesc_left hj)

theorem AgreeOn.right {t1 t2 : SegmentTree} {c : Nat} (h : AgreeOn t1 t2 c) :
    AgreeOn t1 t2 (rightChild c) :=
  fun j hj => h j (isDesc_right hj)

theorem AgreeOn.symm {t1 t2 : SegmentTree} {c : Nat} (h : AgreeOn t1 t2 c) :
    AgreeOn t2 t1 c :=
  fun j hj => ⟨(h j hj).1.symm, (h j hj).2.symm⟩

theorem AgreeOn.eff {t1 t2 : SegmentTree} {c : Nat} (h : AgreeOn t1 t2 c) :
    SegmentTree.eff t1 c = SegmentTree.eff t2 c := by
  unfold SegmentTree.eff
  rw [(h c (isDesc_refl c)).1, (h c (isDesc_refl c)).2]

theorem absAt_congr :
    ∀ fuel t1 t2 c l r p, AgreeOn t1 t2 c →
      absAt fuel t1 c l r p = absAt fuel t2 c l r p := by
  intro fuel
  induction fuel with
  | zero =>
    intro t1 t2 c l r p h
    exact (h c (isDesc_refl c)).1
  | succ fuel ih =>
    intro t1 t2 c l r p h
    rw [absAt_succ, absAt_succ]
    have hc := h c (isDesc_refl c)
    rw [hc.1, hc.2]
    by_cases h1 : l = r
    · rw [if_pos h1, if_pos h1]
    · rw [if_neg h1, if_neg h1]
      by_cases h2 : l < r
      · rw [if_pos h2, if_pos h2]
        by_cases h3 : p ≤ midIdx l r
        · rw [if_pos h3, if_pos h3, ih _ _ _ _ _ _ h.left]
        · rw [if_neg h3, if_neg h3, ih _ _ _ _ _ _ h.right]
      · rw [if_neg h2, if_neg h2]

theorem Inv_congr :
    ∀ fuel t1 t2 c l r, AgreeOn t1 t2 c → Inv fuel t1 c l r → Inv fuel t2 c l r := by
  intro fuel
  induction fuel with
  | zero => intro _ _ _ _ _ _ _; trivial
  | succ fuel ih =>
    intro t1 t2 c l r h hinv
    rw [Inv_succ] at hinv ⊢
    have hc := h c (isDesc_refl c)
    have hl := h (leftChild c) (isDesc_leftChild c)
    have hr := h (rightChild c) (isDesc_rightChild c)
    constructor
    · intro v hv
      rw [← hc.1]
      exact hinv.1 v (hc.2 ▸ hv)
    · intro hlr
      obtain ⟨e1, e2, e3, e4, e5⟩ := hinv.2 hlr
      refine ⟨?_, ?_, ?_, ih _ _ _ _ _ h.left e4, ih _ _ _ _ _ h.right e5⟩
      · rw [← hc.1, ← h.left.eff, ← h.right.eff]
        exact e1
      · intro w hw
        rw [← hc.1]
        exact e2 w (hl.2 ▸ hw)
      · intro w hw
        rw [← hc.1]
        exact e3 w (hr.2 ▸ hw)

/-! ### The effective node value is the max of the logical values below it -/

theorem capOpt_none (x : Int) : capOpt none x = x := rfl

theorem capOpt_some (v x : Int) : capOpt (some v) x = min v x := rfl

theorem rmax_absAt_eq_eff :
    ∀ fuel t c l r, r - l < fuel → l ≤ r → Inv fuel t c l r →
      rmax (fun p => absAt fuel t c l r p) l r = eff t c := by
  intro fuel
  induction fuel with
  | zero => intro t c l r hf; omega
  | succ fuel ih =>
    intro t c l r hf hlr hinv
    rw [Inv_succ] at hinv
    by_cases h1 : l = r
    · subst h1
      have he : ∀ p, l ≤ p → p ≤ l → absAt (fuel + 1) t c l l p = eff t c := by
        intro p _ _
        rw [absAt_succ, if_pos rfl]
        rfl
      rw [rmax_congr _ _ (le_refl l) he, rmax_single]
    · have h2 : l < r := by omega
      have hm1 : l ≤ midIdx l r := by unfold midIdx; omega
      have hm2 : midIdx l r < r := by unfold midIdx; omega
      obtain ⟨e1, _, _, e4, e5⟩ := hinv.2 h2
      have hgl : ∀ p, l ≤ p → p ≤ midIdx l r →
          absAt (fuel + 1) t c l r p =
          capOpt (t.lazyAt c) (absAt fuel t (leftChild c) l (midIdx l r) p) := by
        intro p hp1 hp2
        rw [absAt_succ, if_neg h1, if_pos h2, if_pos hp2]
      have hgr : ∀ p, midIdx l r + 1 ≤ p → p ≤ r →
          absAt (fuel + 1) t c l r p =
          capOpt (t.lazyAt c) (absAt fuel t (rightChild c) (midIdx l r + 1) r p) := by
        intro p hp1 hp2
        rw [absAt_succ, if_neg h1, if_pos h2, if_neg (by omega)]
      have hL := ih t (leftChild c) l (midIdx l r) (by unfold midIdx at *; omega) hm1 e4
      have hR := ih t (rightChild c) (midIdx l r + 1) r (by unfold midIdx at *; omega) (by omega) e5
      rw [rmax_split _ hm1 hm2, rmax_congr _ _ hm1 hgl, rmax_congr _ _ (by omega) hgr]
      cases hlz : t.lazyAt c with
      | none =>
        simp only [capOpt_none]
        rw [hL, hR, ← e1]
        unfold eff
        rw [hlz, capOpt_none]
      | some v =>
        simp only [capOpt_some]
        rw [rmax_min_distrib, rmax_min_distrib, hL, hR, ← min_max_distrib_left, ← e1]
        unfold eff
        rw [hlz, capOpt_some]

end SegmentTree

/-! ### Helper lemmas for the propagation proof -/

theorem isDesc_ne_root_left {x j : Nat} (h : isDesc (SegmentTree.leftChild x) j) : j ≠ x := by
  have := isDesc_le h
  unfold SegmentTree.leftChild at this
  omega

theorem isDesc_ne_root_right {x j : Nat} (h : isDesc (SegmentTree.rightChild x) j) : j ≠ x := by
  have := isDesc_le h
  unfold SegmentTree.rightChild at this
  omega

theorem isDesc_left_ne_right {c j : Nat} (h : isDesc (SegmentTree.leftChild c) j) :
    j ≠ SegmentTree.rightChild c := by
  intro e
  exact isDesc_children_disjoint h (e ▸ isDesc_refl _)

theorem isDesc_right_ne_left {c j : Nat} (h : isDesc (SegmentTree.rightChild c) j) :
    j ≠ SegmentTree.leftChild c := by
  intro e
  exact isDesc_children_disjoint (e ▸ isDesc_refl _) h

namespace SegmentTree

theorem eff_le_treeAt (t : SegmentTree) (c : Nat) : eff t c ≤ t.treeAt c := by
  unfold eff
  cases t.lazyAt c with
  | none => exact le_refl _
  | some v => exact min_le_right _ _

theorem absAt_le_eff {fuel : Nat} {t : SegmentTree} {c l r p : Nat}
    (hf : r - l < fuel) (hinv : Inv fuel t c l r) (hp1 : l ≤ p) (hp2 : p ≤ r) :
    absAt fuel t c l r p ≤ eff t c := by
  rw [← rmax_absAt_eq_eff fuel t c l r hf (le_trans hp1 hp2) hinv]
  exact le_rmax _ hp1 hp2

/-- Setting a pending value not above the stored value at the root of a
subtree preserves the invariant there. -/
theorem Inv_setLazy_root :
    ∀ fuel t x l r v, v ≤ t.treeAt x → x < t.lazy.length →
      Inv fuel t x l r → Inv fuel (t.setLazy x (some v)) x l r := by
  intro fuel t x l r v hv hx hinv
  cases fuel with
  | zero => trivial
  | succ G =>
    rw [Inv_succ] at hinv ⊢
    have hne_l : ∀ j, isDesc (leftChild x) j →
        (t.setLazy x (some v)).treeAt j = t.treeAt j ∧
        (t.setLazy x (some v)).lazyAt j = t.lazyAt j := by
      intro j hj
      exact ⟨treeAt_setLazy t x j _, lazyAt_setLazy_ne _ (Ne.symm (isDesc_ne_root_left hj))⟩
    have hne_r : ∀ j, isDesc (rightChild x) j →
        (t.setLazy x (some v)).treeAt j = t.treeAt j ∧
        (t.setLazy x (some v)).lazyAt j = t.lazyAt j := by
      intro j hj
      exact ⟨treeAt_setLazy t x j _, lazyAt_setLazy_ne _ (Ne.symm (isDesc_ne_root_right hj))⟩
    constructor
    · intro w hw
      rw [lazyAt_setLazy_self _ hx] at hw
      cases hw
      rw [treeAt_setLazy]
      exact hv
    · intro hlr
      obtain ⟨e1, e2, e3, e4, e5⟩ := hinv.2 hlr
      refine ⟨?_, ?_, ?_, ?_, ?_⟩
      · rw [treeAt_setLazy]
        have el : eff (t.setLazy x (some v)) (leftChild x) = eff t (leftChild x) :=
          AgreeOn.eff hne_l
        have er : eff (t.setLazy x (some v)) (rightChild x) = eff t (rightChild x) :=
          AgreeOn.eff hne_r
        rw [el, er]
        exact e1
      · intro w hw
        rw [(hne_l (leftChild x) (isDesc_refl _)).2] at hw
        rw [treeAt_setLazy]
        exact e2 w hw
      · intro w hw
        rw [(hne_r (rightChild x) (isDesc_refl _)).2] at hw
        rw [treeAt_setLazy]
        exact e3 w hw
      · exact Inv_congr G t _ _ _ _ (fun j hj => ((hne_l j hj).1.symm ▸ ⟨(hne_l j hj).1.symm, (hne_l j hj).2.symm⟩ : _)) e4
      · exact Inv_congr G t _ _ _ _ (fun j hj => ⟨(hne_r j hj).1.symm, (hne_r j hj).2.symm⟩) e5

/-- Queuing a pending clamp at the root of a subtree clamps every logical
value of the subtree, provided any pending value it overwrites is at least as
large. -/
theorem absAt_setLazy_min :
    ∀ fuel t x l r p v, 1 ≤ fuel → l ≤ r → x < t.lazy.length →
      (∀ w, t.lazyAt x = some w → v ≤ w) →
      absAt fuel (t.setLazy x (some v)) x l r p = min v (absAt fuel t x l r p) := by
  intro fuel t x l r p v hfuel hlr hx hw
  cases fuel with
  | zero => omega
  | succ G =>
    rw [absAt_succ, absAt_succ]
    by_cases h1 : l = r
    · rw [if_pos h1, if_pos h1, lazyAt_setLazy_self _ hx, treeAt_setLazy, capOpt_some]
      cases hlzx : t.lazyAt x with
      | none => rw [capOpt_none]
      | some w =>
        rw [capOpt_some, ← min_assoc, min_eq_left (hw w hlzx)]
    · have h2 : l < r := by omega
      rw [if_neg h1, if_neg h1, if_pos h2, if_pos h2, lazyAt_setLazy_self _ hx, capOpt_some]
      have hcl : absAt G (t.setLazy x (some v)) (leftChild x) l (midIdx l r) p =
          absAt G t (leftChild x) l (midIdx l r) p := by
        refine absAt_congr G _ _ _ _ _ _ fun j hj =>
          ⟨treeAt_setLazy t x j _, lazyAt_setLazy_ne _ (Ne.symm (isDesc_ne_root_left hj))⟩
      have hcr : absAt G (t.setLazy x (some v)) (rightChild x) (midIdx l r + 1) r p =
          absAt G t (rightChild x) (midIdx l r + 1) r p := by
        refine absAt_congr G _ _ _ _ _ _ fun j hj =>
          ⟨treeAt_setLazy t x j _, lazyAt_setLazy_ne _ (Ne.symm (isDesc_ne_root_right hj))⟩
      rw [hcl, hcr]
      cases hlzx : t.lazyAt x with
      | none => rw [capOpt_none]
      | some w =>
        rw [capOpt_some]
        have hmin : ∀ X : Int, v ⊓ (w ⊓ X) = v ⊓ X := by
          intro X
          rw [← min_assoc, min_eq_left (hw w hlzx)]
        by_cases hp : p ≤ midIdx l r <;> simp only [hp, if_true, if_false] <;> rw [hmin]

end SegmentTree

/-! ### Main specification of `propagate` -/

namespace SegmentTree

theorem propagate_spec {fuel : Nat} {t : SegmentTree} {c l r n : Nat}
    (hlen : t.tree.length = 4 * n) (hlzlen : t.lazy.length = 4 * n)
    (hfits : fits n c l r) (hf : r - l < fuel) (hlr : l ≤ r)
    (hinv : Inv fuel t c l r) :
    Inv fuel (propagate t c) c l r ∧
    (propagate t c).treeAt c = eff t c ∧
    (∀ p, l ≤ p → p ≤ r → absAt fuel (propagate t c) c l r p = absAt fuel t c l r p) := by
  cases fuel with
  | zero => omega
  | succ G =>
  cases hlz : t.lazyAt c with
  | none =>
    rw [propagate_eq_of_none hlz]
    refine ⟨hinv, ?_, fun p _ _ => rfl⟩
    unfold eff
    rw [hlz, capOpt_none]
  | some v =>
    rw [Inv_succ] at hinv
    have hc4 : c < 4 * n := fits_idx_lt hfits
    have hcl : c < t.tree.length := by omega
    have hv_le : v ≤ t.treeAt c := hinv.1 v hlz
    have htc : (propagate t c).treeAt c = v := by
      rw [propagate_treeAt_self hcl, hlz]
      rfl
    have heffc : eff t c = v := by
      unfold eff
      rw [hlz, capOpt_some]
      exact min_eq_left hv_le
    by_cases h2 : l < r
    · -- internal node: the guard holds and the children exist
      have hguard : c < t.tree.length / 2 - 1 := by
        have := fits_guard h2 hfits
        omega
      have hlcb : leftChild c < t.lazy.length := by
        have := fits_idx_lt (fits_left h2 hfits)
        omega
      have hrcb : rightChild c < t.lazy.length := by
        have := fits_idx_lt (fits_right h2 hfits)
        omega
      have hG1 : 1 ≤ G := by omega
      have hspanL : midIdx l r - l < G := by unfold midIdx; omega
      have hspanR : r - (midIdx l r + 1) < G := by unfold midIdx; omega
      have hLlz := propagate_lazyAt_left hlz hguard hlcb
      have hRlz := propagate_lazyAt_right hlz hguard hrcb
      have hLtr : (propagate t c).treeAt (leftChild c) = t.treeAt (leftChild c) :=
        propagate_treeAt_ne (by unfold leftChild; omega)
      have hRtr : (propagate t c).treeAt (rightChild c) = t.treeAt (rightChild c) :=
        propagate_treeAt_ne (by unfold rightChild; omega)
      obtain ⟨e1, e2, e3, e4, e5⟩ := hinv.2 h2
      have hv_le_lc : ∀ w, t.lazyAt (leftChild c) = some w → v ≤ w :=
        fun w hw => le_trans hv_le (e2 w hw)
      have hv_le_rc : ∀ w, t.lazyAt (rightChild c) = some w → v ≤ w :=
        fun w hw => le_trans hv_le (e3 w hw)
      -- the deep part of each child subtree is untouched
      have hdeepL : ∀ j, isDesc (leftChild c) j → j ≠ leftChild c →
          (propagate t c).treeAt j = t.treeAt j ∧
          (propagate t c).lazyAt j = t.lazyAt j := by
        intro j hj hne
        have hjle := isDesc_le hj
        refine ⟨propagate_treeAt_ne (isDesc_ne_root_left hj),
          propagate_lazyAt_ne (isDesc_ne_root_left hj) hne (isDesc_left_ne_right hj)⟩
      have hdeepR : ∀ j, isDesc (rightChild c) j → j ≠ rightChild c →
          (propagate t c).treeAt j = t.treeAt j ∧
          (propagate t c).lazyAt j = t.lazyAt j := by
        intro j hj hne
        refine ⟨propagate_treeAt_ne (isDesc_ne_root_right hj),
          propagate_lazyAt_ne (isDesc_ne_root_right hj) (isDesc_right_ne_left hj) hne⟩
      -- effective child values after propagation
      have hefl : eff (propagate t c) (leftChild c) =
          if v < t.treeAt (leftChild c) then v else eff t (leftChild c) := by
        unfold eff
        rw [hLlz, hLtr]
        by_cases hA : v < t.treeAt (leftChild c)
        · rw [if_pos hA, if_pos hA, capOpt_some, min_eq_left (le_of_lt hA)]
        · rw [if_neg hA, if_neg hA]
      have hefr : eff (propagate t c) (rightChild c) =
          if v < t.treeAt (rightChild c) then v else eff t (rightChild c) := by
        unfold eff
        rw [hRlz, hRtr]
        by_cases hB : v < t.treeAt (rightChild c)
        · rw [if_pos hB, if_pos hB, capOpt_some, min_eq_left (le_of_lt hB)]
        · rw [if_neg hB, if_neg hB]
      -- per-child state after propagation as a congruence target
      have hagreeL : ∀ tgt : SegmentTree,
          (tgt.treeAt (leftChild c) = (propagate t c).treeAt (leftChild c)) →
          (tgt.lazyAt (leftChild c) = (propagate t c).lazyAt (leftChild c)) →
          (∀ j, isDesc (leftChild c) j → j ≠ leftChild c →
            tgt.treeAt j = t.treeAt j ∧ tgt.lazyAt j = t.lazyAt j) →
          AgreeOn (propagate t c) tgt (leftChild c) := by
        intro tgt h1 h2 h3
        intro j hj
        by_cases hje : j = leftChild c
        · subst hje
          exact ⟨h1.symm, h2.symm⟩
        · obtain ⟨a1, a2⟩ := h3 j hj hje
          obtain ⟨b1, b2⟩ := hdeepL j hj hje
          exact ⟨by rw [a1, b1], by rw [a2, b2]⟩
      -- the three main conclusions
      refine ⟨?_, by rw [htc, heffc], ?_⟩
      · -- invariant is preserved
        rw [Inv_succ]
        constructor
        · intro w hw
          rw [propagate_lazyAt_self] at hw
          exact Option.noConfusion hw
        · intro _
          refine ⟨?_, ?_, ?_, ?_, ?_⟩
          · -- node equation
            rw [htc, hefl, hefr]
            by_cases hA : v < t.treeAt (leftChild c) <;>
              by_cases hB : v < t.treeAt (rightChild c)
            · rw [if_pos hA, if_pos hB, max_self]
            · rw [if_pos hA, if_neg hB]
              have : eff t (rightChild c) ≤ v :=
                le_trans (eff_le_treeAt t _) (by omega)
              exact (max_eq_left this).symm
            · rw [if_neg hA, if_pos hB]
              have : eff t (leftChild c) ≤ v :=
                le_trans (eff_le_treeAt t _) (by omega)
              exact (max_eq_right this).symm
            · rw [if_neg hA, if_neg hB]
              have hl1 : eff t (leftChild c) ≤ v :=
                le_trans (eff_le_treeAt t _) (by omega)
              have hr1 : eff t (rightChild c) ≤ v :=
                le_trans (eff_le_treeAt t _) (by omega)
              have : t.treeAt c ≤ v := by
                rw [e1]
                exact max_le hl1 hr1
              rw [← e1]
              omega
          · -- parent value below left pending
            intro w hw
            rw [hLlz] at hw
            rw [htc]
            by_cases hA : v < t.treeAt (leftChild c)
            · rw [if_pos hA] at hw
              cases hw
              exact le_refl _
            · rw [if_neg hA] at hw
              exact hv_le_lc w hw
          · -- parent value below right pending
            intro w hw
            rw [hRlz] at hw
            rw [htc]
            by_cases hB : v < t.treeAt (rightChild c)
            · rw [if_pos hB] at hw
              cases hw
              exact le_refl _
            · rw [if_neg hB] at hw
              exact hv_le_rc w hw
          · -- left subtree invariant
            by_cases hA : v < t.treeAt (leftChild c)
            · refine Inv_congr G (t.setLazy (leftChild c) (some v)) _ _ _ _ ?_
                (Inv_setLazy_root G t (leftChild c) l (midIdx l r) v (le_of_lt hA) hlcb e4)
              refine (hagreeL _ ?_ ?_ ?_).symm
              · rw [hLtr, treeAt_setLazy]
              · rw [hLlz, if_pos hA, lazyAt_setLazy_self _ hlcb]
              · intro j hj hje
                exact ⟨treeAt_setLazy t _ j _, lazyAt_setLazy_ne _ (Ne.symm hje)⟩
            · refine Inv_congr G t _ _ _ _ ?_ e4
              refine (hagreeL t ?_ ?_ ?_).symm
              · rw [hLtr]
              · rw [hLlz, if_neg hA]
              · intro j _ _
                exact ⟨rfl, rfl⟩
          · -- right subtree invariant
            by_cases hB : v < t.treeAt (rightChild c)
            · refine Inv_congr G (t.setLazy (rightChild c) (some v)) _ _ _ _ ?_
                (Inv_setLazy_root G t (rightChild c) (midIdx l r + 1) r v (le_of_lt hB) hrcb e5)
              intro j hj
              by_cases hje : j = rightChild c
              · subst hje
                refine ⟨by rw [hRtr, treeAt_setLazy], ?_⟩
                rw [hRlz, if_pos hB, lazyAt_setLazy_self _ hrcb]
              · obtain ⟨b1, b2⟩ := hdeepR j hj hje
                exact ⟨by rw [treeAt_setLazy, b1.symm],
                  by rw [lazyAt_setLazy_ne _ (Ne.symm hje), b2.symm]⟩
            · refine Inv_congr G t _ _ _ _ ?_ e5
              intro j hj
              by_cases hje : j = rightChild c
              · subst hje
                exact ⟨hRtr.symm, by rw [hRlz, if_neg hB]⟩
              · obtain ⟨b1, b2⟩ := hdeepR j hj hje
                exact ⟨b1.symm, b2.symm⟩
      · -- the logical values are unchanged
        intro p hp1 hp2
        have hne : l ≠ r := by omega
        rw [absAt_succ, absAt_succ, if_neg hne, if_neg hne, if_pos h2, if_pos h2,
          propagate_lazyAt_self, hlz, capOpt_none, capOpt_some]
        by_cases hp : p ≤ midIdx l r <;> simp only [hp, if_true, if_false]
        · -- left side
          by_cases hA : v < t.treeAt (leftChild c)
          · have hstep : absAt G (propagate t c) (leftChild c) l (midIdx l r) p =
                absAt G (t.setLazy (leftChild c) (some v)) (leftChild c) l (midIdx l r) p := by
              refine absAt_congr G _ _ _ _ _ _ (hagreeL _ ?_ ?_ ?_)
              · rw [hLtr, treeAt_setLazy]
              · rw [hLlz, if_pos hA, lazyAt_setLazy_self _ hlcb]
              · intro j hj hje
                exact ⟨treeAt_setLazy t _ j _, lazyAt_setLazy_ne _ (Ne.symm hje)⟩
            rw [hstep]
            exact absAt_setLazy_min G t (leftChild c) l (midIdx l r) p v hG1
              (by unfold midIdx; omega) hlcb hv_le_lc
          · have hstep : absAt G (propagate t c) (leftChild c) l (midIdx l r) p =
                absAt G t (leftChild c) l (midIdx l r) p := by
              refine absAt_congr G _ _ _ _ _ _ (hagreeL t ?_ ?_ ?_)
              · rw [hLtr]
              · rw [hLlz, if_neg hA]
              · intro j _ _
                exact ⟨rfl, rfl⟩
            rw [hstep]
            have hle : absAt G t (leftChild c) l (midIdx l r) p ≤ v := by
              refine le_trans (absAt_le_eff hspanL e4 hp1 hp) ?_
              exact le_trans (eff_le_treeAt t _) (by omega)
            exact (min_eq_right hle).symm
        · -- right side
          by_cases hB : v < t.treeAt (rightChild c)
          · have hstep : absAt G (propagate t c) (rightChild c) (midIdx l r + 1) r p =
                absAt G (t.setLazy (rightChild c) (some v)) (rightChild c) (midIdx l r + 1) r p := by
              refine absAt_congr G _ _ _ _ _ _ ?_
              intro j hj
              by_cases hje : j = rightChild c
              · subst hje
                refine ⟨by rw [hRtr, treeAt_setLazy], ?_⟩
                rw [hRlz, if_pos hB, lazyAt_setLazy_self _ hrcb]
              · obtain ⟨b1, b2⟩ := hdeepR j hj hje
                exact ⟨by rw [treeAt_setLazy, b1.symm],
                  by rw [lazyAt_setLazy_ne _ (Ne.symm hje), b2.symm]⟩
            rw [hstep]
            exact absAt_setLazy_min G t (rightChild c) (midIdx l r + 1) r p v hG1
              (by unfold midIdx; omega) hrcb hv_le_rc
          · have hstep : absAt G (propagate t c) (rightChild c) (midIdx l r + 1) r p =
                absAt G t (rightChild c) (midIdx l r + 1) r p := by
              refine absAt_congr G _ _ _ _ _ _ ?_
              intro j hj
              by_cases hje : j = rightChild c
              · subst hje
                exact ⟨hRtr, by rw [hRlz, if_neg hB]⟩
              · exact hdeepR j hj hje
            rw [hstep]
            have hle : absAt G t (rightChild c) (midIdx l r + 1) r p ≤ v := by
              refine le_trans (absAt_le_eff hspanR e5 (by omega) hp2) ?_
              exact le_trans (eff_le_treeAt t _) (by omega)
            exact (min_eq_right hle).symm
    · -- leaf node: l = r
      have hle : l = r := by omega
      subst hle
      refine ⟨?_, by rw [htc, heffc], ?_⟩
      · rw [Inv_succ]
        constructor
        · intro w hw
          rw [propagate_lazyAt_self] at hw
          exact Option.noConfusion hw
        · intro hcon
          omega
      · intro p hp1 hp2
        rw [absAt_succ, absAt_succ, if_pos rfl, if_pos rfl,
          propagate_lazyAt_self, htc, capOpt_none, hlz, capOpt_some]
        exact (min_eq_left hv_le).symm

end SegmentTree

/-! ### Frame: the operations only write inside the subtree they visit -/

namespace SegmentTree

theorem propagate_frame {t : SegmentTree} {c j : Nat} (h : ¬ isDesc c j) :
    (propagate t c).treeAt j = t.treeAt j ∧ (propagate t c).lazyAt j = t.lazyAt j := by
  have h1 : j ≠ c := fun e => h (e ▸ isDesc_refl c)
  have h2 : j ≠ leftChild c := fun e => h (e ▸ isDesc_leftChild c)
  have h3 : j ≠ rightChild c := fun e => h (e ▸ isDesc_rightChild c)
  exact ⟨propagate_treeAt_ne h1, propagate_lazyAt_ne h1 h2 h3⟩

theorem updateQueryF_frame :
    ∀ fuel t c lq rq l r v j, ¬ isDesc c j →
      (updateQueryF fuel t c lq rq l r v).treeAt j = t.treeAt j ∧
      (updateQueryF fuel t c lq rq l r v).lazyAt j = t.lazyAt j := by
  intro fuel
  induction fuel with
  | zero => intro t c lq rq l r v j h; exact ⟨rfl, rfl⟩
  | succ fuel ih =>
    intro t c lq rq l r v j h
    have h1 : j ≠ c := fun e => h (e ▸ isDesc_refl c)
    have hL : ¬ isDesc (leftChild c) j := fun hd => h (isDesc_left hd)
    have hR : ¬ isDesc (rightChild c) j := fun hd => h (isDesc_right hd)
    have hp := propagate_frame (t := t) (c := c) h
    unfold updateQueryF
    dsimp only
    split_ifs with g1 g2 g3
    · exact hp
    · have hs : ((propagate t c).setLazy c (some v)).treeAt j = t.treeAt j ∧
          ((propagate t c).setLazy c (some v)).lazyAt j = t.lazyAt j := by
        rw [treeAt_setLazy, lazyAt_setLazy_ne _ (Ne.symm h1)]
        exact hp
      have hp2 := propagate_frame (t := (propagate t c).setLazy c (some v)) (c := c) h
      exact ⟨hp2.1.trans hs.1, hp2.2.trans hs.2⟩
    · exact hp
    · have i1 := ih (propagate t c) (leftChild c) lq rq l (midIdx l r) v j hL
      have i2 := ih (updateQueryF fuel (propagate t c) (leftChild c) lq rq l (midIdx l r) v)
        (rightChild c) lq rq (midIdx l r + 1) r v j hR
      refine ⟨?_, ?_⟩
      · rw [treeAt_setTree_ne _ (Ne.symm h1), i2.1, i1.1, hp.1]
      · rw [lazyAt_setTree, i2.2, i1.2, hp.2]

theorem maxQueryF_frame :
    ∀ fuel t c lq rq l r j, ¬ isDesc c j →
      (maxQueryF fuel t c lq rq l r).2.treeAt j = t.treeAt j ∧
      (maxQueryF fuel t c lq rq l r).2.lazyAt j = t.lazyAt j := by
  intro fuel
  induction fuel with
  | zero => intro t c lq rq l r j h; exact ⟨rfl, rfl⟩
  | succ fuel ih =>
    intro t c lq rq l r j h
    have hL : ¬ isDesc (leftChild c) j := fun hd => h (isDesc_left hd)
    have hR : ¬ isDesc (rightChild c) j := fun hd => h (isDesc_right hd)
    have hp := propagate_frame (t := t) (c := c) h
    unfold maxQueryF
    dsimp only
    split_ifs with g1 g2
    · exact hp
    · exact hp
    · have i1 := ih (propagate t c) (leftChild c) lq rq l (midIdx l r) j hL
      have i2 := ih (maxQueryF fuel (propagate t c) (leftChild c) lq rq l (midIdx l r)).2
        (rightChild c) lq rq (midIdx l r + 1) r j hR
      exact ⟨i2.1.trans (i1.1.trans hp.1), i2.2.trans (i1.2.trans hp.2)⟩

theorem buildF_frame :
    ∀ fuel t nums l r c j, ¬ isDesc c j →
      (buildF fuel t nums l r c).treeAt j = t.treeAt j ∧
      (buildF fuel t nums l r c).lazyAt j = t.lazyAt j := by
  intro fuel
  induction fuel with
  | zero => intro t nums l r c j h; exact ⟨rfl, rfl⟩
  | succ fuel ih =>
    intro t nums l r c j h
    have h1 : j ≠ c := fun e => h (e ▸ isDesc_refl c)
    have hL : ¬ isDesc (leftChild c) j := fun hd => h (isDesc_left hd)
    have hR : ¬ isDesc (rightChild c) j := fun hd => h (isDesc_right hd)
    unfold buildF
    dsimp only
    split_ifs with g1 g2
    · exact ⟨treeAt_setTree_ne _ (Ne.symm h1), lazyAt_setTree t c j _⟩
    · have i1 := ih t nums l (midIdx l r) (leftChild c) j hL
      have i2 := ih (buildF fuel t nums l (midIdx l r) (leftChild c)) nums
        (midIdx l r + 1) r (rightChild c) j hR
      refine ⟨?_, ?_⟩
      · rw [treeAt_setTree_ne _ (Ne.symm h1), i2.1, i1.1]
      · rw [lazyAt_setTree, i2.2, i1.2]
    · exact ⟨rfl, rfl⟩

/-- `buildF` never writes the pending array. -/
theorem buildF_lazy :
    ∀ fuel t nums l r c, (buildF fuel t nums l r c).lazy = t.lazy := by
  intro fuel
  induction fuel with
  | zero => intro t nums l r c; rfl
  | succ fuel ih =>
    intro t nums l r c
    unfold buildF
    dsimp only
    split_ifs with g1 g2
    · rfl
    · rw [lazy_setTree, ih, ih]
    · rfl

end SegmentTree

/-! ### Main specification of `update_query` -/

namespace SegmentTree

theorem AgreeOn.trans {t1 t2 t3 : SegmentTree} {c : Nat}
    (h1 : AgreeOn t1 t2 c) (h2 : AgreeOn t2 t3 c) : AgreeOn t1 t3 c :=
  fun j hj => ⟨(h1 j hj).1.trans (h2 j hj).1, (h1 j hj).2.trans (h2 j hj).2⟩

theorem updateQueryF_spec :
    ∀ fuel t c lq rq l r v n,
      t.tree.length = 4 * n → t.lazy.length = 4 * n →
      fits n c l r → r - l < fuel → l ≤ r →
      Inv fuel t c l r →
      (updateQueryF fuel t c lq rq l r v).lazyAt c = none ∧
      Inv fuel (updateQueryF fuel t c lq rq l r v) c l r ∧
      (∀ p, l ≤ p → p ≤ r →
        absAt fuel (updateQueryF fuel t c lq rq l r v) c l r p =
          if lq ≤ p ∧ p ≤ rq then min v (absAt fuel t c l r p)
          else absAt fuel t c l r p) := by
  intro fuel
  induction fuel with
  | zero => intro t c lq rq l r v n _ _ _ hf; omega
  | succ G ih =>
    intro t c lq rq l r v n hlen hlzlen hfits hf hlr hinv
    obtain ⟨hP1, hP2, hP3⟩ := propagate_spec hlen hlzlen hfits hf hlr hinv
    have hshape0 := propagate_shape t c
    have hlen0 : (propagate t c).tree.length = 4 * n := by rw [hshape0.1, hlen]
    have hlzlen0 : (propagate t c).lazy.length = 4 * n := by rw [hshape0.2.1, hlzlen]
    have hc4 : c < 4 * n := fits_idx_lt hfits
    unfold updateQueryF
    dsimp only
    split_ifs with g1 g2 g3
    · -- no overlap
      refine ⟨propagate_lazyAt_self t c, hP1, ?_⟩
      intro p hp1 hp2
      rw [if_neg (by omega), hP3 p hp1 hp2]
    · -- total overlap, clamp applies
      have hvle : v ≤ (propagate t c).treeAt c := le_of_lt g3
      have hcb : c < (propagate t c).lazy.length := by omega
      have hlz0 : (propagate t c).lazyAt c = none := propagate_lazyAt_self t c
      have hinv1 : Inv (G + 1) ((propagate t c).setLazy c (some v)) c l r :=
        Inv_setLazy_root (G + 1) _ c l r v hvle hcb hP1
      have hlen1 : ((propagate t c).setLazy c (some v)).tree.length = 4 * n := by
        rw [(setLazy_shape _ _ _).1, hlen0]
      have hlzlen1 : ((propagate t c).setLazy c (some v)).lazy.length = 4 * n := by
        rw [(setLazy_shape _ _ _).2.1, hlzlen0]
      obtain ⟨hQ1, hQ2, hQ3⟩ := propagate_spec hlen1 hlzlen1 hfits hf hlr hinv1
      refine ⟨propagate_lazyAt_self _ c, hQ1, ?_⟩
      intro p hp1 hp2
      rw [if_pos (by omega), hQ3 p hp1 hp2,
        absAt_setLazy_min (G + 1) _ c l r p v (by omega) hlr hcb
          (fun w hw => absurd (hlz0 ▸ hw) (by simp)),
        hP3 p hp1 hp2]
    · -- total overlap, clamp has no effect
      refine ⟨propagate_lazyAt_self t c, hP1, ?_⟩
      intro p hp1 hp2
      rw [if_pos (by omega), hP3 p hp1 hp2]
      have hle : absAt (G + 1) t c l r p ≤ v := by
        have h1 : absAt (G + 1) t c l r p = absAt (G + 1) (propagate t c) c l r p :=
          (hP3 p hp1 hp2).symm
        have h2 : absAt (G + 1) (propagate t c) c l r p ≤ eff (propagate t c) c :=
          absAt_le_eff hf hP1 hp1 hp2
        have h3 : eff (propagate t c) c = (propagate t c).treeAt c := by
          unfold eff
          rw [propagate_lazyAt_self, capOpt_none]
        omega
      exact (min_eq_right hle).symm
    · -- partial overlap
      have h2 : l < r := by omega
      have hne : l ≠ r := by omega
      have hm1 : l ≤ midIdx l r := by unfold midIdx; omega
      have hm2 : midIdx l r < r := by unfold midIdx; omega
      have hspanL : midIdx l r - l < G := by unfold midIdx; omega
      have hspanR : r - (midIdx l r + 1) < G := by unfold midIdx; omega
      have hfitsL := fits_left h2 hfits
      have hfitsR := fits_right h2 hfits
      obtain ⟨_, _, _, e4, e5⟩ := (Inv_succ G (propagate t c) c l r).mp hP1 |>.2 h2
      have hlz0 : (propagate t c).lazyAt c = none := propagate_lazyAt_self t c
      -- left recursive call
      obtain ⟨hL1, hL2, hL3⟩ := ih (propagate t c) (leftChild c) lq rq l (midIdx l r) v n
        hlen0 hlzlen0 hfitsL hspanL hm1 e4
      have hshape1 := updateQueryF_shape G (propagate t c) (leftChild c) lq rq l (midIdx l r) v
      have hlen1 : (updateQueryF G (propagate t c) (leftChild c) lq rq l (midIdx l r) v).tree.length = 4 * n := by
        rw [hshape1.1, hlen0]
      have hlzlen1 : (updateQueryF G (propagate t c) (leftChild c) lq rq l (midIdx l r) v).lazy.length = 4 * n := by
        rw [hshape1.2.1, hlzlen0]
      -- the left call leaves the right subtree untouched
      have hagree10 : AgreeOn (updateQueryF G (propagate t c) (leftChild c) lq rq l (midIdx l r) v)
          (propagate t c) (rightChild c) := by
        intro j hj
        exact updateQueryF_frame G _ _ _ _ _ _ _ j (fun hd => isDesc_children_disjoint hd hj)
      have e5' : Inv G (updateQueryF G (propagate t c) (leftChild c) lq rq l (midIdx l r) v)
          (rightChild c) (midIdx l r + 1) r :=
        Inv_congr G _ _ _ _ _ hagree10.symm e5
      -- right recursive call
      obtain ⟨hR1, hR2, hR3⟩ := ih (updateQueryF G (propagate t c) (leftChild c) lq rq l (midIdx l r) v)
        (rightChild c) lq rq (midIdx l r + 1) r v n hlen1 hlzlen1 hfitsR hspanR (by omega) e5'
      have hagree21 : AgreeOn
          (updateQueryF G (updateQueryF G (propagate t c) (leftChild c) lq rq l (midIdx l r) v)
            (rightChild c) lq rq (midIdx l r + 1) r v)
          (updateQueryF G (propagate t c) (leftChild c) lq rq l (midIdx l r) v)
          (leftChild c) := by
        intro j hj
        exact updateQueryF_frame G _ _ _ _ _ _ _ j (fun hd => isDesc_children_disjoint hj hd)
      -- abbreviations
      set tL := updateQueryF G (propagate t c) (leftChild c) lq rq l (midIdx l r) v with htL
      set tR := updateQueryF G tL (rightChild c) lq rq (midIdx l r + 1) r v with htR
      have hshape2 := updateQueryF_shape G tL (rightChild c) lq rq (midIdx l r + 1) r v
      have hlen2 : tR.tree.length = 4 * n := by rw [htR, hshape2.1, hlen1]
      have hlzlen2 : tR.lazy.length = 4 * n := by rw [htR, hshape2.2.1, hlzlen1]
      have hcneL : ∀ j, isDesc (leftChild c) j → j ≠ c := fun j hj => isDesc_ne_root_left hj
      have hcneR : ∀ j, isDesc (rightChild c) j → j ≠ c := fun j hj => isDesc_ne_root_right hj
      -- the final write at the parent
      have hagreeFL : AgreeOn (tR.setTree c (max (tR.treeAt (leftChild c)) (tR.treeAt (rightChild c))))
          tL (leftChild c) := by
        refine AgreeOn.trans ?_ hagree21
        intro j hj
        exact ⟨treeAt_setTree_ne _ (Ne.symm (hcneL j hj)), lazyAt_setTree _ _ _ _⟩
      have hagreeFR : AgreeOn (tR.setTree c (max (tR.treeAt (leftChild c)) (tR.treeAt (rightChild c))))
          tR (rightChild c) := by
        intro j hj
        exact ⟨treeAt_setTree_ne _ (Ne.symm (hcneR j hj)), lazyAt_setTree _ _ _ _⟩
      have hlzFc : (tR.setTree c (max (tR.treeAt (leftChild c)) (tR.treeAt (rightChild c)))).lazyAt c = none := by
        rw [lazyAt_setTree]
        have j1 : tR.lazyAt c = tL.lazyAt c :=
          (updateQueryF_frame G tL (rightChild c) lq rq (midIdx l r + 1) r v c
            (not_isDesc_of_lt (by unfold rightChild; omega))).2
        have j2 : tL.lazyAt c = (propagate t c).lazyAt c :=
          (updateQueryF_frame G (propagate t c) (leftChild c) lq rq l (midIdx l r) v c
            (not_isDesc_of_lt (by unfold leftChild; omega))).2
        rw [j1, j2, hlz0]
      have htreeFc : (tR.setTree c (max (tR.treeAt (leftChild c)) (tR.treeAt (rightChild c)))).treeAt c =
          max (tR.treeAt (leftChild c)) (tR.treeAt (rightChild c)) := by
        refine treeAt_setTree_self _ ?_
        omega
      have hlzFL : (tR.setTree c (max (tR.treeAt (leftChild c)) (tR.treeAt (rightChild c)))).lazyAt
          (leftChild c) = none := by
        rw [lazyAt_setTree]
        have j1 : tR.lazyAt (leftChild c) = tL.lazyAt (leftChild c) :=
          (hagree21 (leftChild c) (isDesc_refl _)).2
        rw [j1, hL1]
      have hlzFR : (tR.setTree c (max (tR.treeAt (leftChild c)) (tR.treeAt (rightChild c)))).lazyAt
          (rightChild c) = none := by
        rw [lazyAt_setTree]
        exact hR1
      refine ⟨hlzFc, ?_, ?_⟩
      · -- invariant at the parent after the merge
        rw [Inv_succ]
        constructor
        · intro w hw
          rw [hlzFc] at hw
          exact Option.noConfusion hw
        · intro _
          refine ⟨?_, ?_, ?_, ?_, ?_⟩
          · rw [htreeFc]
            have efl : eff (tR.setTree c (max (tR.treeAt (leftChild c)) (tR.treeAt (rightChild c))))
                (leftChild c) = tR.treeAt (leftChild c) := by
              unfold eff
              rw [hlzFL, capOpt_none, treeAt_setTree_ne _ (Ne.symm (by unfold leftChild; omega))]
            have efr : eff (tR.setTree c (max (tR.treeAt (leftChild c)) (tR.treeAt (rightChild c))))
                (rightChild c) = tR.treeAt (rightChild c) := by
              unfold eff
              rw [hlzFR, capOpt_none, treeAt_setTree_ne _ (Ne.symm (by unfold rightChild; omega))]
            rw [efl, efr]
          · intro w hw
            rw [hlzFL] at hw
            exact Option.noConfusion hw
          · intro w hw
            rw [hlzFR] at hw
            exact Option.noConfusion hw
          · exact Inv_congr G tL _ _ _ _ hagreeFL.symm hL2
          · exact Inv_congr G tR _ _ _ _ hagreeFR.symm hR2
      · -- the pointwise clamp formula
        intro p hp1 hp2
        have hRHS : absAt (G + 1) t c l r p = absAt (G + 1) (propagate t c) c l r p :=
          (hP3 p hp1 hp2).symm
        rw [hRHS, absAt_succ, absAt_succ, if_neg hne, if_neg hne, if_pos h2, if_pos h2,
          hlzFc, hlz0, capOpt_none, capOpt_none]
        by_cases hp : p ≤ midIdx l r <;> simp only [hp, if_true, if_false]
        · have s1 : absAt G (tR.setTree c (max (tR.treeAt (leftChild c)) (tR.treeAt (rightChild c))))
              (leftChild c) l (midIdx l r) p = absAt G tL (leftChild c) l (midIdx l r) p :=
            absAt_congr G _ _ _ _ _ _ hagreeFL
          rw [s1, hL3 p hp1 hp]
        · have s1 : absAt G (tR.setTree c (max (tR.treeAt (leftChild c)) (tR.treeAt (rightChild c))))
              (rightChild c) (midIdx l r + 1) r p = absAt G tR (rightChild c) (midIdx l r + 1) r p :=
            absAt_congr G _ _ _ _ _ _ hagreeFR
          have s2 : absAt G tL (rightChild c) (midIdx l r + 1) r p =
              absAt G (propagate t c) (rightChild c) (midIdx l r + 1) r p :=
            absAt_congr G _ _ _ _ _ _ hagree10
          rw [s1, hR3 p (by omega) hp2, s2]

end SegmentTree

/-! ### Main specification of `max_query`: state effects -/

namespace SegmentTree

theorem eff_eq_of_absAt_eq {G : Nat} {tX tY : SegmentTree} {x l r : Nat}
    (hfX : r - l < G) (hlr : l ≤ r)
    (hX : Inv G tX x l r) (hY : Inv G tY x l r)
    (h : ∀ p, l ≤ p → p ≤ r → absAt G tX x l r p = absAt G tY x l r p) :
    eff tX x = eff tY x := by
  rw [← rmax_absAt_eq_eff G tX x l r hfX hlr hX, ← rmax_absAt_eq_eff G tY x l r hfX hlr hY]
  exact rmax_congr _ _ hlr h

theorem maxQueryF_spec :
    ∀ fuel t c lq rq l r n,
      t.tree.length = 4 * n → t.lazy.length = 4 * n →
      fits n c l r → r - l < fuel → l ≤ r →
      Inv fuel t c l r →
      (maxQueryF fuel t c lq rq l r).2.lazyAt c = none ∧
      Inv fuel (maxQueryF fuel t c lq rq l r).2 c l r ∧
      (∀ p, l ≤ p → p ≤ r →
        absAt fuel (maxQueryF fuel t c lq rq l r).2 c l r p = absAt fuel t c l r p) ∧
      (∀ p, l ≤ p → p ≤ r → lq ≤ p → p ≤ rq →
        absAt fuel t c l r p ≤ (maxQueryF fuel t c lq rq l r).1) := by
  intro fuel
  induction fuel with
  | zero => intro t c lq rq l r n _ _ _ hf; omega
  | succ G ih =>
    intro t c lq rq l r n hlen hlzlen hfits hf hlr hinv
    obtain ⟨hP1, hP2, hP3⟩ := propagate_spec hlen hlzlen hfits hf hlr hinv
    have hshape0 := propagate_shape t c
    have hlen0 : (propagate t c).tree.length = 4 * n := by rw [hshape0.1, hlen]
    have hlzlen0 : (propagate t c).lazy.length = 4 * n := by rw [hshape0.2.1, hlzlen]
    have hlz0 : (propagate t c).lazyAt c = none := propagate_lazyAt_self t c
    unfold maxQueryF
    dsimp only
    split_ifs with g1 g2
    · -- no overlap: no position satisfies both range conditions
      exact ⟨hlz0, hP1, fun p hp1 hp2 => hP3 p hp1 hp2,
        fun p hp1 hp2 hq1 hq2 => absurd (And.intro hq1 hq2) (by omega)⟩
    · -- total overlap: the answer is the node value
      refine ⟨hlz0, hP1, fun p hp1 hp2 => hP3 p hp1 hp2, ?_⟩
      intro p hp1 hp2 _ _
      have h1 : absAt (G + 1) t c l r p = absAt (G + 1) (propagate t c) c l r p :=
        (hP3 p hp1 hp2).symm
      have h2 : absAt (G + 1) (propagate t c) c l r p ≤ eff (propagate t c) c :=
        absAt_le_eff hf hP1 hp1 hp2
      have h3 : eff (propagate t c) c = (propagate t c).treeAt c := by
        unfold eff
        rw [hlz0, capOpt_none]
      omega
    · -- partial overlap
      have h2 : l < r := by omega
      have hne : l ≠ r := by omega
      have hm1 : l ≤ midIdx l r := by unfold midIdx; omega
      have hm2 : midIdx l r < r := by unfold midIdx; omega
      have hspanL : midIdx l r - l < G := by unfold midIdx; omega
      have hspanR : r - (midIdx l r + 1) < G := by unfold midIdx; omega
      have hfitsL := fits_left h2 hfits
      have hfitsR := fits_right h2 hfits
      obtain ⟨e1, e2, e3, e4, e5⟩ := (Inv_succ G (propagate t c) c l r).mp hP1 |>.2 h2
      obtain ⟨hL1, hL2, hL3, hL4⟩ := ih (propagate t c) (leftChild c) lq rq l (midIdx l r) n
        hlen0 hlzlen0 hfitsL hspanL hm1 e4
      set tL := (maxQueryF G (propagate t c) (leftChild c) lq rq l (midIdx l r)).2 with htL
      have hshape1 := maxQueryF_shape G (propagate t c) (leftChild c) lq rq l (midIdx l r)
      have hlen1 : tL.tree.length = 4 * n := by rw [htL, hshape1.1, hlen0]
      have hlzlen1 : tL.lazy.length = 4 * n := by rw [htL, hshape1.2.1, hlzlen0]
      have hagree10 : AgreeOn tL (propagate t c) (rightChild c) := by
        intro j hj
        exact maxQueryF_frame G _ _ _ _ _ _ j (fun hd => isDesc_children_disjoint hd hj)
      have e5' : Inv G tL (rightChild c) (midIdx l r + 1) r :=
        Inv_congr G _ _ _ _ _ hagree10.symm e5
      obtain ⟨hR1, hR2, hR3, hR4⟩ := ih tL (rightChild c) lq rq (midIdx l r + 1) r n
        hlen1 hlzlen1 hfitsR hspanR (by omega) e5'
      set tR := (maxQueryF G tL (rightChild c) lq rq (midIdx l r + 1) r).2 with htR
      have hagree21 : AgreeOn tR tL (leftChild c) := by
        intro j hj
        exact maxQueryF_frame G _ _ _ _ _ _ j (fun hd => isDesc_children_disjoint hj hd)
      have hcdescL : ¬ isDesc (leftChild c) c := not_isDesc_of_lt (by unfold leftChild; omega)
      have hcdescR : ¬ isDesc (rightChild c) c := not_isDesc_of_lt (by unfold rightChild; omega)
      have hlzFc : tR.lazyAt c = none := by
        have j1 := (maxQueryF_frame G tL (rightChild c) lq rq (midIdx l r + 1) r c hcdescR).2
        have j2 := (maxQueryF_frame G (propagate t c) (leftChild c) lq rq l (midIdx l r) c hcdescL).2
        rw [← htR] at j1
        rw [← htL] at j2
        rw [j1, j2, hlz0]
      have htrFc : tR.treeAt c = (propagate t c).treeAt c := by
        have j1 := (maxQueryF_frame G tL (rightChild c) lq rq (midIdx l r + 1) r c hcdescR).1
        have j2 := (maxQueryF_frame G (propagate t c) (leftChild c) lq rq l (midIdx l r) c hcdescL).1
        rw [← htR] at j1
        rw [← htL] at j2
        rw [j1, j2]
      -- the children's effective values are preserved by the recursive queries
      have hefL : eff tR (leftChild c) = eff (propagate t c) (leftChild c) := by
        have i1 : eff tR (leftChild c) = eff tL (leftChild c) := AgreeOn.eff hagree21
        have i2 : eff tL (leftChild c) = eff (propagate t c) (leftChild c) :=
          eff_eq_of_absAt_eq hspanL hm1 hL2 e4 hL3
        rw [i1, i2]
      have hefR : eff tR (rightChild c) = eff (propagate t c) (rightChild c) := by
        have i2 : eff tR (rightChild c) = eff tL (rightChild c) :=
          eff_eq_of_absAt_eq hspanR (by omega) hR2 e5' hR3
        have i3 : eff tL (rightChild c) = eff (propagate t c) (rightChild c) :=
          AgreeOn.eff hagree10
        rw [i2, i3]
      refine ⟨hlzFc, ?_, ?_, ?_⟩
      · -- invariant preserved without any write at the parent
        rw [Inv_succ]
        constructor
        · intro w hw
          rw [hlzFc] at hw
          exact Option.noConfusion hw
        · intro _
          refine ⟨?_, ?_, ?_, ?_, ?_⟩
          · rw [htrFc, hefL, hefR]
            exact e1
          · intro w hw
            rw [(hagree21 (leftChild c) (isDesc_refl _)).2, hL1] at hw
            exact Option.noConfusion hw
          · intro w hw
            rw [hR1] at hw
            exact Option.noConfusion hw
          · exact Inv_congr G tL _ _ _ _ hagree21.symm hL2
          · exact hR2
      · -- logical values preserved
        intro p hp1 hp2
        have hRHS : absAt (G + 1) t c l r p = absAt (G + 1) (propagate t c) c l r p :=
          (hP3 p hp1 hp2).symm
        rw [hRHS, absAt_succ, absAt_succ, if_neg hne, if_neg hne, if_pos h2, if_pos h2,
          hlzFc, hlz0, capOpt_none, capOpt_none]
        by_cases hp : p ≤ midIdx l r <;> simp only [hp, if_true, if_false]
        · have s1 : absAt G tR (leftChild c) l (midIdx l r) p =
              absAt G tL (leftChild c) l (midIdx l r) p :=
            absAt_congr G _ _ _ _ _ _ hagree21
          rw [s1, hL3 p hp1 hp]
        · have s2 : absAt G tL (rightChild c) (midIdx l r + 1) r p =
              absAt G (propagate t c) (rightChild c) (midIdx l r + 1) r p :=
            absAt_congr G _ _ _ _ _ _ hagree10
          rw [hR3 p (by omega) hp2, s2]
      · -- the answer dominates every queried position
        intro p hp1 hp2 hq1 hq2
        have hRHS : absAt (G + 1) t c l r p = absAt (G + 1) (propagate t c) c l r p :=
          (hP3 p hp1 hp2).symm
        rw [hRHS, absAt_succ, if_neg hne, if_pos h2, hlz0, capOpt_none]
        by_cases hp : p ≤ midIdx l r <;> simp only [hp, if_true, if_false]
        · exact le_trans (hL4 p hp1 hp hq1 hq2) (le_max_left _ _)
        · have s2 : absAt G (propagate t c) (rightChild c) (midIdx l r + 1) r p =
              absAt G tL (rightChild c) (midIdx l r + 1) r p :=
            (absAt_congr G _ _ _ _ _ _ hagree10).symm
          rw [s2]
          exact le_trans (hR4 p (by omega) hp2 hq1 hq2) (le_max_right _ _)

end SegmentTree


/-! ### The value returned by `max_query` -/

namespace SegmentTree

theorem absAt_internal_left {G : Nat} {t : SegmentTree} {c l r p : Nat}
    (h2 : l < r) (hlz : t.lazyAt c = none) (hp : p ≤ midIdx l r) :
    absAt (G + 1) t c l r p = absAt G t (leftChild c) l (midIdx l r) p := by
  rw [absAt_succ, if_neg (by omega), if_pos h2, hlz, capOpt_none, if_pos hp]

theorem absAt_internal_right {G : Nat} {t : SegmentTree} {c l r p : Nat}
    (h2 : l < r) (hlz : t.lazyAt c = none) (hp : ¬ p ≤ midIdx l r) :
    absAt (G + 1) t c l r p = absAt G t (rightChild c) (midIdx l r + 1) r p := by
  rw [absAt_succ, if_neg (by omega), if_pos h2, hlz, capOpt_none, if_neg hp]

theorem maxQueryF_result :
    ∀ fuel t c lq rq l r n,
      t.tree.length = 4 * n → t.lazy.length = 4 * n →
      fits n c l r → r - l < fuel → l ≤ r → lq ≤ rq →
      Inv fuel t c l r →
      (∀ p, l ≤ p → p ≤ r → -1 ≤ absAt fuel t c l r p) →
      (maxQueryF fuel t c lq rq l r).1 =
        if r < lq ∨ rq < l then -1
        else rmax (fun p => absAt fuel t c l r p) (max l lq) (min r rq) := by
  intro fuel
  induction fuel with
  | zero => intro t c lq rq l r n _ _ _ hf; omega
  | succ G ih =>
    intro t c lq rq l r n hlen hlzlen hfits hf hlr hq hinv hnn
    obtain ⟨hP1, hP2, hP3⟩ := propagate_spec hlen hlzlen hfits hf hlr hinv
    have hshape0 := propagate_shape t c
    have hlen0 : (propagate t c).tree.length = 4 * n := by rw [hshape0.1, hlen]
    have hlzlen0 : (propagate t c).lazy.length = 4 * n := by rw [hshape0.2.1, hlzlen]
    have hlz0 : (propagate t c).lazyAt c = none := propagate_lazyAt_self t c
    unfold maxQueryF
    dsimp only
    split_ifs with g1 g2
    · rfl
    · have h3 : eff (propagate t c) c = (propagate t c).treeAt c := by
        unfold eff
        rw [hlz0, capOpt_none]
      have h4 : rmax (fun p => absAt (G + 1) (propagate t c) c l r p) l r =
          eff (propagate t c) c :=
        rmax_absAt_eq_eff (G + 1) _ c l r hf hlr hP1
      have h5 : rmax (fun p => absAt (G + 1) (propagate t c) c l r p) l r =
          rmax (fun p => absAt (G + 1) t c l r p) l r :=
        rmax_congr _ _ hlr fun p hp1 hp2 => hP3 p hp1 hp2
      have e1 : max l lq = l := max_eq_left g2.1
      have e2 : min r rq = r := min_eq_left g2.2
      rw [e1, e2, ← h5, h4, h3]
    · have h2 : l < r := by omega
      have hm1 : l ≤ midIdx l r := by unfold midIdx; omega
      have hm2 : midIdx l r < r := by unfold midIdx; omega
      have hspanL : midIdx l r - l < G := by unfold midIdx; omega
      have hspanR : r - (midIdx l r + 1) < G := by unfold midIdx; omega
      have hfitsL := fits_left h2 hfits
      have hfitsR := fits_right h2 hfits
      obtain ⟨e1x, e2x, e3x, e4, e5⟩ := (Inv_succ G (propagate t c) c l r).mp hP1 |>.2 h2
      have habsL : ∀ p, l ≤ p → p ≤ midIdx l r →
          absAt G (propagate t c) (leftChild c) l (midIdx l r) p = absAt (G + 1) t c l r p := by
        intro p hp1 hp2
        rw [← absAt_internal_left h2 hlz0 hp2, hP3 p hp1 (by omega)]
      have habsR : ∀ p, midIdx l r + 1 ≤ p → p ≤ r →
          absAt G (propagate t c) (rightChild c) (midIdx l r + 1) r p = absAt (G + 1) t c l r p := by
        intro p hp1 hp2
        rw [← absAt_internal_right h2 hlz0 (by omega), hP3 p (by omega) hp2]
      have hnnL : ∀ p, l ≤ p → p ≤ midIdx l r →
          -1 ≤ absAt G (propagate t c) (leftChild c) l (midIdx l r) p := by
        intro p hp1 hp2
        rw [habsL p hp1 hp2]
        exact hnn p hp1 (by omega)
      have iL := ih (propagate t c) (leftChild c) lq rq l (midIdx l r) n
        hlen0 hlzlen0 hfitsL hspanL hm1 hq e4 hnnL
      set tL := (maxQueryF G (propagate t c) (leftChild c) lq rq l (midIdx l r)).2 with htL
      have hshape1 := maxQueryF_shape G (propagate t c) (leftChild c) lq rq l (midIdx l r)
      have hlen1 : tL.tree.length = 4 * n := by rw [htL, hshape1.1, hlen0]
      have hlzlen1 : tL.lazy.length = 4 * n := by rw [htL, hshape1.2.1, hlzlen0]
      have hagree10 : AgreeOn tL (propagate t c) (rightChild c) := by
        intro j hj
        exact maxQueryF_frame G _ _ _ _ _ _ j (fun hd => isDesc_children_disjoint hd hj)
      have e5' : Inv G tL (rightChild c) (midIdx l r + 1) r :=
        Inv_congr G _ _ _ _ _ hagree10.symm e5
      have habsR' : ∀ p, midIdx l r + 1 ≤ p → p ≤ r →
          absAt G tL (rightChild c) (midIdx l r + 1) r p = absAt (G + 1) t c l r p := by
        intro p hp1 hp2
        rw [absAt_congr G tL (propagate t c) _ _ _ _ hagree10]
        exact habsR p hp1 hp2
      have hnnR : ∀ p, midIdx l r + 1 ≤ p → p ≤ r →
          -1 ≤ absAt G tL (rightChild c) (midIdx l r + 1) r p := by
        intro p hp1 hp2
        rw [habsR' p hp1 hp2]
        exact hnn p (by omega) hp2
      have iR := ih tL (rightChild c) lq rq (midIdx l r + 1) r n
        hlen1 hlzlen1 hfitsR hspanR (by omega) hq e5' hnnR
      dsimp only
      rcases Nat.lt_or_ge (midIdx l r) lq with hcase1 | hrest
      · -- query entirely right of the midpoint
        have hL : (maxQueryF G (propagate t c) (leftChild c) lq rq l (midIdx l r)).1 = -1 := by
          rw [iL, if_pos (Or.inl hcase1)]
        have hR : (maxQueryF G tL (rightChild c) lq rq (midIdx l r + 1) r).1 =
            rmax (fun p => absAt G tL (rightChild c) (midIdx l r + 1) r p)
              (max (midIdx l r + 1) lq) (min r rq) := by
          rw [iR, if_neg (by omega)]
        have ha : max (midIdx l r + 1) lq = lq := max_eq_right (by omega)
        have hb : max l lq = lq := max_eq_right (by omega)
        have hcong : rmax (fun p => absAt G tL (rightChild c) (midIdx l r + 1) r p) lq (min r rq) =
            rmax (fun p => absAt (G + 1) t c l r p) lq (min r rq) :=
          rmax_congr _ _ (by omega) fun p hp1 hp2 => habsR' p (by omega) (by omega)
        rw [hL, hR, ha, hb, hcong]
        refine max_eq_right ?_
        have hx1 : (fun p => absAt (G + 1) t c l r p) lq ≤
            rmax (fun p => absAt (G + 1) t c l r p) lq (min r rq) :=
          le_rmax _ (le_refl lq) (by omega)
        have hx2 : (-1 : Int) ≤ absAt (G + 1) t c l r lq := hnn lq (by omega) (by omega)
        exact le_trans hx2 hx1
      · rcases Nat.lt_or_ge rq (midIdx l r + 1) with hcase2 | hcase3
        · -- query entirely left of the midpoint
          have hR : (maxQueryF G tL (rightChild c) lq rq (midIdx l r + 1) r).1 = -1 := by
            rw [iR, if_pos (Or.inr hcase2)]
          have hL : (maxQueryF G (propagate t c) (leftChild c) lq rq l (midIdx l r)).1 =
              rmax (fun p => absAt G (propagate t c) (leftChild c) l (midIdx l r) p)
                (max l lq) (min (midIdx l r) rq) := by
            rw [iL, if_neg (by omega)]
          have ha : min (midIdx l r) rq = rq := min_eq_right (by omega)
          have hb : min r rq = rq := min_eq_right (by omega)
          have hcong : rmax (fun p => absAt G (propagate t c) (leftChild c) l (midIdx l r) p)
              (max l lq) rq = rmax (fun p => absAt (G + 1) t c l r p) (max l lq) rq :=
            rmax_congr _ _ (by omega) fun p hp1 hp2 => habsL p (by omega) (by omega)
          rw [hL, hR, ha, hb, hcong]
          refine max_eq_left ?_
          have hx1 : (fun p => absAt (G + 1) t c l r p) (max l lq) ≤
              rmax (fun p => absAt (G + 1) t c l r p) (max l lq) rq :=
            le_rmax _ (le_refl _) (by omega)
          have hx2 : (-1 : Int) ≤ absAt (G + 1) t c l r (max l lq) :=
            hnn (max l lq) (by omega) (by omega)
          exact le_trans hx2 hx1
        · -- the query straddles the midpoint
          have hL : (maxQueryF G (propagate t c) (leftChild c) lq rq l (midIdx l r)).1 =
              rmax (fun p => absAt G (propagate t c) (leftChild c) l (midIdx l r) p)
                (max l lq) (min (midIdx l r) rq) := by
            rw [iL, if_neg (by omega)]
          have hR : (maxQueryF G tL (rightChild c) lq rq (midIdx l r + 1) r).1 =
              rmax (fun p => absAt G tL (rightChild c) (midIdx l r + 1) r p)
                (max (midIdx l r + 1) lq) (min r rq) := by
            rw [iR, if_neg (by omega)]
          have ha : min (midIdx l r) rq = midIdx l r := min_eq_left (by omega)
          have hb : max (midIdx l r + 1) lq = midIdx l r + 1 := max_eq_left (by omega)
          have hsplit : rmax (fun p => absAt (G + 1) t c l r p) (max l lq) (min r rq) =
              max (rmax (fun p => absAt (G + 1) t c l r p) (max l lq) (midIdx l r))
                (rmax (fun p => absAt (G + 1) t c l r p) (midIdx l r + 1) (min r rq)) :=
            rmax_split _ (by omega) (by omega)
          have hcongL : rmax (fun p => absAt G (propagate t c) (leftChild c) l (midIdx l r) p)
              (max l lq) (midIdx l r) =
              rmax (fun p => absAt (G + 1) t c l r p) (max l lq) (midIdx l r) :=
            rmax_congr _ _ (by omega) fun p hp1 hp2 => habsL p (by omega) hp2
          have hcongR : rmax (fun p => absAt G tL (rightChild c) (midIdx l r + 1) r p)
              (midIdx l r + 1) (min r rq) =
              rmax (fun p => absAt (G + 1) t c l r p) (midIdx l r + 1) (min r rq) :=
            rmax_congr _ _ (by omega) fun p hp1 hp2 => habsR' p hp1 (by omega)
          rw [hL, hR, ha, hb, hsplit, hcongL, hcongR]

end SegmentTree

/-! ### Monotonicity of the answer in the logical array -/

namespace SegmentTree

theorem maxQueryF_le :
    ∀ fuel t1 t2 c lq rq l r n,
      t1.tree.length = 4 * n → t1.lazy.length = 4 * n →
      t2.tree.length = 4 * n → t2.lazy.length = 4 * n →
      fits n c l r → r - l < fuel → l ≤ r →
      Inv fuel t1 c l r → Inv fuel t2 c l r →
      (∀ p, l ≤ p → p ≤ r → absAt fuel t1 c l r p ≤ absAt fuel t2 c l r p) →
      (maxQueryF fuel t1 c lq rq l r).1 ≤ (maxQueryF fuel t2 c lq rq l r).1 := by
  intro fuel
  induction fuel with
  | zero => intro t1 t2 c lq rq l r n _ _ _ _ _ hf; omega
  | succ G ih =>
    intro t1 t2 c lq rq l r n hlen1 hlzlen1 hlen2 hlzlen2 hfits hf hlr hinv1 hinv2 hle
    obtain ⟨hP1a, hP1b, hP1c⟩ := propagate_spec hlen1 hlzlen1 hfits hf hlr hinv1
    obtain ⟨hP2a, hP2b, hP2c⟩ := propagate_spec hlen2 hlzlen2 hfits hf hlr hinv2
    have hlz1 : (propagate t1 c).lazyAt c = none := propagate_lazyAt_self t1 c
    have hlz2 : (propagate t2 c).lazyAt c = none := propagate_lazyAt_self t2 c
    have hlen1' : (propagate t1 c).tree.length = 4 * n := by
      rw [(propagate_shape t1 c).1, hlen1]
    have hlzlen1' : (propagate t1 c).lazy.length = 4 * n := by
      rw [(propagate_shape t1 c).2.1, hlzlen1]
    have hlen2' : (propagate t2 c).tree.length = 4 * n := by
      rw [(propagate_shape t2 c).1, hlen2]
    have hlzlen2' : (propagate t2 c).lazy.length = 4 * n := by
      rw [(propagate_shape t2 c).2.1, hlzlen2]
    have hle' : ∀ p, l ≤ p → p ≤ r →
        absAt (G + 1) (propagate t1 c) c l r p ≤ absAt (G + 1) (propagate t2 c) c l r p := by
      intro p hp1 hp2
      rw [hP1c p hp1 hp2, hP2c p hp1 hp2]
      exact hle p hp1 hp2
    unfold maxQueryF
    dsimp only
    split_ifs with g1 g2
    · exact le_refl _
    · -- total overlap: compare the two effective node values
      have h1 : (propagate t1 c).treeAt c = eff (propagate t1 c) c := by
        unfold eff
        rw [hlz1, capOpt_none]
      have h2 : (propagate t2 c).treeAt c = eff (propagate t2 c) c := by
        unfold eff
        rw [hlz2, capOpt_none]
      rw [h1, h2, ← rmax_absAt_eq_eff (G + 1) _ c l r hf hlr hP1a,
        ← rmax_absAt_eq_eff (G + 1) _ c l r hf hlr hP2a]
      exact rmax_mono _ _ hlr hle'
    · -- partial overlap
      have h2 : l < r := by omega
      have hm1 : l ≤ midIdx l r := by unfold midIdx; omega
      have hm2 : midIdx l r < r := by unfold midIdx; omega
      have hspanL : midIdx l r - l < G := by unfold midIdx; omega
      have hspanR : r - (midIdx l r + 1) < G := by unfold midIdx; omega
      have hfitsL := fits_left h2 hfits
      have hfitsR := fits_right h2 hfits
      obtain ⟨_, _, _, e4a, e5a⟩ := (Inv_succ G (propagate t1 c) c l r).mp hP1a |>.2 h2
      obtain ⟨_, _, _, e4b, e5b⟩ := (Inv_succ G (propagate t2 c) c l r).mp hP2a |>.2 h2
      have hleL : ∀ p, l ≤ p → p ≤ midIdx l r →
          absAt G (propagate t1 c) (leftChild c) l (midIdx l r) p ≤
          absAt G (propagate t2 c) (leftChild c) l (midIdx l r) p := by
        intro p hp1 hp2
        rw [← absAt_internal_left h2 hlz1 hp2, ← absAt_internal_left h2 hlz2 hp2]
        exact hle' p hp1 (by omega)
      have iL := ih (propagate t1 c) (propagate t2 c) (leftChild c) lq rq l (midIdx l r) n
        hlen1' hlzlen1' hlen2' hlzlen2' hfitsL hspanL hm1 e4a e4b hleL
      set tL1 := (maxQueryF G (propagate t1 c) (leftChild c) lq rq l (midIdx l r)).2 with htL1
      set tL2 := (maxQueryF G (propagate t2 c) (leftChild c) lq rq l (midIdx l r)).2 with htL2
      have hag1 : AgreeOn tL1 (propagate t1 c) (rightChild c) := by
        intro j hj
        exact maxQueryF_frame G _ _ _ _ _ _ j (fun hd => isDesc_children_disjoint hd hj)
      have hag2 : AgreeOn tL2 (propagate t2 c) (rightChild c) := by
        intro j hj
        exact maxQueryF_frame G _ _ _ _ _ _ j (fun hd => isDesc_children_disjoint hd hj)
      have e5a' : Inv G tL1 (rightChild c) (midIdx l r + 1) r :=
        Inv_congr G _ _ _ _ _ hag1.symm e5a
      have e5b' : Inv G tL2 (rightChild c) (midIdx l r + 1) r :=
        Inv_congr G _ _ _ _ _ hag2.symm e5b
      have hshape1 := maxQueryF_shape G (propagate t1 c) (leftChild c) lq rq l (midIdx l r)
      have hshape2 := maxQueryF_shape G (propagate t2 c) (leftChild c) lq rq l (midIdx l r)
      have hlenL1 : tL1.tree.length = 4 * n := by rw [htL1, hshape1.1, hlen1']
      have hlzlenL1 : tL1.lazy.length = 4 * n := by rw [htL1, hshape1.2.1, hlzlen1']
      have hlenL2 : tL2.tree.length = 4 * n := by rw [htL2, hshape2.1, hlen2']
      have hlzlenL2 : tL2.lazy.length = 4 * n := by rw [htL2, hshape2.2.1, hlzlen2']
      have hleR : ∀ p, midIdx l r + 1 ≤ p → p ≤ r →
          absAt G tL1 (rightChild c) (midIdx l r + 1) r p ≤
          absAt G tL2 (rightChild c) (midIdx l r + 1) r p := by
        intro p hp1 hp2
        rw [absAt_congr G tL1 (propagate t1 c) _ _ _ _ hag1,
          absAt_congr G tL2 (propagate t2 c) _ _ _ _ hag2,
          ← absAt_internal_right h2 hlz1 (by omega), ← absAt_internal_right h2 hlz2 (by omega)]
        exact hle' p (by omega) hp2
      have iR := ih tL1 tL2 (rightChild c) lq rq (midIdx l r + 1) r n
        hlenL1 hlzlenL1 hlenL2 hlzlenL2 hfitsR hspanR (by omega) e5a' e5b' hleR
      dsimp only
      exact max_le_max iL iR

end SegmentTree

/-! ### Correctness of construction -/

namespace SegmentTree

theorem buildF_spec :
    ∀ fuel t nums c l r n,
      t.tree.length = 4 * n → t.lazy.length = 4 * n →
      (∀ j, t.lazyAt j = none) →
      fits n c l r → r - l < fuel → l ≤ r →
      (∀ j, (buildF fuel t nums l r c).lazyAt j = none) ∧
      Inv fuel (buildF fuel t nums l r c) c l r ∧
      (∀ p, l ≤ p → p ≤ r →
        absAt fuel (buildF fuel t nums l r c) c l r p = nums.getD p 0) := by
  intro fuel
  induction fuel with
  | zero => intro t nums c l r n _ _ _ _ hf; omega
  | succ G ih =>
    intro t nums c l r n hlen hlzlen hlznone hfits hf hlr
    have hlzall : ∀ j, (buildF (G + 1) t nums l r c).lazyAt j = none := by
      intro j
      unfold lazyAt
      rw [buildF_lazy]
      exact hlznone j
    have hc4 : c < 4 * n := fits_idx_lt hfits
    unfold buildF
    dsimp only
    split_ifs with g1 g2
    · -- leaf
      subst g1
      refine ⟨?_, ?_, ?_⟩
      · intro j
        unfold lazyAt
        rw [lazy_setTree]
        exact hlznone j
      · rw [Inv_succ]
        refine ⟨?_, fun h => absurd h (by omega)⟩
        intro w hw
        rw [show (t.setTree c (nums.getD l 0)).lazyAt c = t.lazyAt c from rfl, hlznone c] at hw
        exact Option.noConfusion hw
      · intro p hp1 hp2
        have hp : p = l := by omega
        subst hp
        rw [absAt_succ, if_pos rfl,
          show (t.setTree c (nums.getD p 0)).lazyAt c = t.lazyAt c from rfl, hlznone c,
          capOpt_none]
        exact treeAt_setTree_self _ (by omega)
    · -- internal
      have hm1 : l ≤ midIdx l r := by unfold midIdx; omega
      have hm2 : midIdx l r < r := by unfold midIdx; omega
      have hspanL : midIdx l r - l < G := by unfold midIdx; omega
      have hspanR : r - (midIdx l r + 1) < G := by unfold midIdx; omega
      obtain ⟨hL0, hL1, hL2⟩ := ih t nums (leftChild c) l (midIdx l r) n hlen hlzlen hlznone
        (fits_left g2 hfits) hspanL hm1
      set t1 := buildF G t nums l (midIdx l r) (leftChild c) with ht1
      have hshape1 := buildF_shape G t nums l (midIdx l r) (leftChild c)
      have hlen1 : t1.tree.length = 4 * n := by rw [ht1, hshape1.1, hlen]
      have hlzlen1 : t1.lazy.length = 4 * n := by rw [ht1, hshape1.2.1, hlzlen]
      obtain ⟨hR0, hR1, hR2⟩ := ih t1 nums (rightChild c) (midIdx l r + 1) r n hlen1 hlzlen1
        hL0 (fits_right g2 hfits) hspanR (by omega)
      set t2 := buildF G t1 nums (midIdx l r + 1) r (rightChild c) with ht2
      have hshape2 := buildF_shape G t1 nums (midIdx l r + 1) r (rightChild c)
      have hlen2 : t2.tree.length = 4 * n := by rw [ht2, hshape2.1, hlen1]
      have hag21 : AgreeOn t2 t1 (leftChild c) := by
        intro j hj
        exact buildF_frame G _ _ _ _ _ j (fun hd => isDesc_children_disjoint hj hd)
      have hagF2 : AgreeOn (t2.setTree c (max (t2.treeAt (leftChild c)) (t2.treeAt (rightChild c))))
          t2 (rightChild c) := by
        intro j hj
        exact ⟨treeAt_setTree_ne _ (Ne.symm (isDesc_ne_root_right hj)), lazyAt_setTree _ _ _ _⟩
      have hagF1 : AgreeOn (t2.setTree c (max (t2.treeAt (leftChild c)) (t2.treeAt (rightChild c))))
          t1 (leftChild c) := by
        refine AgreeOn.trans ?_ hag21
        intro j hj
        exact ⟨treeAt_setTree_ne _ (Ne.symm (isDesc_ne_root_left hj)), lazyAt_setTree _ _ _ _⟩
      have hlzF : ∀ j, (t2.setTree c (max (t2.treeAt (leftChild c)) (t2.treeAt (rightChild c)))).lazyAt j = none := by
        intro j
        unfold lazyAt
        rw [lazy_setTree, ht2, buildF_lazy, ht1, buildF_lazy]
        exact hlznone j
      refine ⟨hlzF, ?_, ?_⟩
      · rw [Inv_succ]
        constructor
        · intro w hw
          rw [hlzF c] at hw
          exact Option.noConfusion hw
        · intro _
          refine ⟨?_, ?_, ?_, ?_, ?_⟩
          · rw [treeAt_setTree_self _ (by omega)]
            have efl : eff (t2.setTree c (max (t2.treeAt (leftChild c)) (t2.treeAt (rightChild c))))
                (leftChild c) = t2.treeAt (leftChild c) := by
              unfold eff
              rw [hlzF (leftChild c), capOpt_none,
                treeAt_setTree_ne _ (Ne.symm (by unfold leftChild; omega))]
            have efr : eff (t2.setTree c (max (t2.treeAt (leftChild c)) (t2.treeAt (rightChild c))))
                (rightChild c) = t2.treeAt (rightChild c) := by
              unfold eff
              rw [hlzF (rightChild c), capOpt_none,
                treeAt_setTree_ne _ (Ne.symm (by unfold rightChild; omega))]
            rw [efl, efr]
          · intro w hw
            rw [hlzF (leftChild c)] at hw
            exact Option.noConfusion hw
          · intro w hw
            rw [hlzF (rightChild c)] at hw
            exact Option.noConfusion hw
          · exact Inv_congr G t1 _ _ _ _ hagF1.symm hL1
          · exact Inv_congr G t2 _ _ _ _ hagF2.symm hR1
      · intro p hp1 hp2
        have hlzc : (t2.setTree c (max (t2.treeAt (leftChild c)) (t2.treeAt (rightChild c)))).lazyAt c = none :=
          hlzF c
        by_cases hp : p ≤ midIdx l r
        · rw [absAt_internal_left g2 hlzc hp, absAt_congr G _ t1 _ _ _ _ hagF1]
          exact hL2 p hp1 hp
        · rw [absAt_internal_right g2 hlzc hp, absAt_congr G _ t2 _ _ _ _ hagF2]
          exact hR2 p (by omega) hp2
    · omega

/-- Well-formed tree over the array `A`: shape facts plus the representation
invariant at the root. -/
def WFT (A : List Int) (t : SegmentTree) : Prop :=
  t.upperBound + 1 = A.length ∧
  t.tree.length = 4 * A.length ∧
  t.lazy.length = 4 * A.length ∧
  Inv (t.upperBound + 1) t 0 0 t.upperBound

/-- Logical array content of a tree at position `p`. -/
def logicalAt (t : SegmentTree) (p : Nat) : Int :=
  absAt (t.upperBound + 1) t 0 0 t.upperBound p

theorem new_spec {nums : List Int} {t : SegmentTree} (h : new nums = some t) :
    WFT nums t ∧ (∀ p, p ≤ t.upperBound → logicalAt t p = nums.getD p 0) := by
  cases nums with
  | nil => exact Option.noConfusion h
  | cons a tail =>
    unfold new at h
    dsimp only at h
    set A := a :: tail with hA
    set t0 : SegmentTree :=
      { tree := List.replicate (4 * A.length) (-1), upperBound := A.length - 1,
        lazy := List.replicate (4 * A.length) none } with ht0
    have hlen0 : t0.tree.length = 4 * A.length := by rw [ht0]; exact List.length_replicate _ _
    have hlzlen0 : t0.lazy.length = 4 * A.length := by rw [ht0]; exact List.length_replicate _ _
    have hpos : 1 ≤ A.length := by rw [hA]; simp
    have hlznone : ∀ j, t0.lazyAt j = none := by
      intro j
      unfold lazyAt
      rcases Nat.lt_or_ge j (4 * A.length) with hj | hj
      · exact getD_replicate _ _ _ _ hj
      · exact List.getD_eq_default _ _ (by rw [hlzlen0]; omega)
    obtain ⟨hB0, hB1, hB2⟩ := buildF_spec A.length t0 A 0 0 (A.length - 1) A.length
      hlen0 hlzlen0 hlznone (fits_root hpos) (by omega) (by omega)
    have hshape := buildF_shape A.length t0 A 0 (A.length - 1) 0
    have hub : (buildF A.length t0 A 0 (A.length - 1) 0).upperBound = A.length - 1 := by
      rw [hshape.2.2]
    have ht : t = buildF A.length t0 A 0 (A.length - 1) 0 := by
      exact (Option.some.injEq _ _ ▸ h).symm
    subst ht
    have hfuel : (buildF A.length t0 A 0 (A.length - 1) 0).upperBound + 1 = A.length := by
      rw [hub]
      omega
    refine ⟨⟨hfuel, ?_, ?_, ?_⟩, ?_⟩
    · rw [hshape.1, hlen0]
    · rw [hshape.2.1, hlzlen0]
    · rw [hfuel, hub]
      exact hB1
    · intro p hp
      unfold logicalAt
      rw [hfuel, hub]
      exact hB2 p (by omega) (by rw [hub] at hp; exact hp)

end SegmentTree

/-! ### Top-level behaviour of `update` and `max` on well-formed trees -/

namespace SegmentTree

theorem wft_pos {A : List Int} {t : SegmentTree} (hw : WFT A t) : 1 ≤ A.length := by
  have := hw.1
  omega

theorem updateV_spec {A : List Int} {t : SegmentTree} (hw : WFT A t) (lq rq : Nat) (v : Int) :
    WFT A (t.updateV lq rq v) ∧
    (t.updateV lq rq v).upperBound = t.upperBound ∧
    (∀ p, p ≤ t.upperBound →
      logicalAt (t.updateV lq rq v) p =
        if lq ≤ p ∧ p ≤ rq then min v (logicalAt t p) else logicalAt t p) := by
  obtain ⟨hub, hlen, hlzlen, hinv⟩ := hw
  have hpos : 1 ≤ A.length := by omega
  have hfits : fits A.length 0 0 t.upperBound := by
    have := fits_root hpos
    have e : A.length - 1 = t.upperBound := by omega
    rw [e] at this
    exact this
  obtain ⟨hU1, hU2, hU3⟩ := updateQueryF_spec (t.upperBound + 1) t 0 lq rq 0 t.upperBound v
    A.length hlen hlzlen hfits (by omega) (by omega) hinv
  have hshape := updateQueryF_shape (t.upperBound + 1) t 0 lq rq 0 t.upperBound v
  have hub' : (t.updateV lq rq v).upperBound = t.upperBound := hshape.2.2
  refine ⟨⟨by rw [hub']; exact hub, ?_, ?_, ?_⟩, hub', ?_⟩
  · rw [updateV, hshape.1, hlen]
  · rw [updateV, hshape.2.1, hlzlen]
  · rw [hub']
    exact hU2
  · intro p hp
    unfold logicalAt
    rw [hub']
    exact hU3 p (by omega) hp

theorem maxV_spec {A : List Int} {t : SegmentTree} (hw : WFT A t) (lq rq : Nat) :
    WFT A (t.maxV lq rq).2 ∧
    (t.maxV lq rq).2.upperBound = t.upperBound ∧
    (∀ p, p ≤ t.upperBound → logicalAt (t.maxV lq rq).2 p = logicalAt t p) ∧
    (∀ p, p ≤ t.upperBound → lq ≤ p → p ≤ rq → logicalAt t p ≤ (t.maxV lq rq).1) := by
  obtain ⟨hub, hlen, hlzlen, hinv⟩ := hw
  have hpos : 1 ≤ A.length := by omega
  have hfits : fits A.length 0 0 t.upperBound := by
    have := fits_root hpos
    have e : A.length - 1 = t.upperBound := by omega
    rw [e] at this
    exact this
  obtain ⟨hM1, hM2, hM3, hM4⟩ := maxQueryF_spec (t.upperBound + 1) t 0 lq rq 0 t.upperBound
    A.length hlen hlzlen hfits (by omega) (by omega) hinv
  have hshape := maxQueryF_shape (t.upperBound + 1) t 0 lq rq 0 t.upperBound
  have hub' : (t.maxV lq rq).2.upperBound = t.upperBound := hshape.2.2
  refine ⟨⟨by rw [hub']; exact hub, ?_, ?_, ?_⟩, hub', ?_, ?_⟩
  · rw [maxV, hshape.1, hlen]
  · rw [maxV, hshape.2.1, hlzlen]
  · rw [hub']
    exact hM2
  · intro p hp
    unfold logicalAt
    rw [hub']
    exact hM3 p (by omega) hp
  · intro p hp hq1 hq2
    exact hM4 p (by omega) hp hq1 hq2

theorem maxV_result {A : List Int} {t : SegmentTree} {lq rq : Nat} (hw : WFT A t)
    (hq : lq ≤ rq)
    (hnn : ∀ p, p ≤ t.upperBound → -1 ≤ logicalAt t p) :
    (t.maxV lq rq).1 =
      if t.upperBound < lq then -1
      else rmax (fun p => logicalAt t p) lq (min t.upperBound rq) := by
  obtain ⟨hub, hlen, hlzlen, hinv⟩ := hw
  have hpos : 1 ≤ A.length := by omega
  have hfits : fits A.length 0 0 t.upperBound := by
    have := fits_root hpos
    have e : A.length - 1 = t.upperBound := by omega
    rw [e] at this
    exact this
  have hres := maxQueryF_result (t.upperBound + 1) t 0 lq rq 0 t.upperBound A.length
    hlen hlzlen hfits (by omega) (by omega) hq hinv (fun p hp1 hp2 => hnn p hp2)
  rw [maxV] at *
  rw [hres]
  by_cases hcase : t.upperBound < lq
  · rw [if_pos (by omega), if_pos hcase]
  · rw [if_neg (by omega), if_neg hcase]
    have e1 : max 0 lq = lq := by omega
    rw [e1]
    rfl

theorem maxV_le_mono {A : List Int} {t1 t2 : SegmentTree} (h1 : WFT A t1) (h2 : WFT A t2)
    (lq rq : Nat)
    (hle : ∀ p, p ≤ t1.upperBound → logicalAt t1 p ≤ logicalAt t2 p) :
    (t1.maxV lq rq).1 ≤ (t2.maxV lq rq).1 := by
  have hub12 : t1.upperBound = t2.upperBound := by
    have := h1.1
    have := h2.1
    omega
  obtain ⟨hub, hlen, hlzlen, hinv⟩ := h1
  obtain ⟨hub2, hlen2, hlzlen2, hinv2⟩ := h2
  have hpos : 1 ≤ A.length := by omega
  have hfits : fits A.length 0 0 t1.upperBound := by
    have := fits_root hpos
    have e : A.length - 1 = t1.upperBound := by omega
    rw [e] at this
    exact this
  have hinv2x : Inv (t1.upperBound + 1) t2 0 0 t1.upperBound := by
    rw [hub12]
    exact hinv2
  have hlex : ∀ p, 0 ≤ p → p ≤ t1.upperBound →
      absAt (t1.upperBound + 1) t1 0 0 t1.upperBound p ≤
      absAt (t1.upperBound + 1) t2 0 0 t1.upperBound p := by
    intro p hp1 hp2
    have hx := hle p hp2
    unfold logicalAt at hx
    rw [← hub12] at hx
    exact hx
  rw [maxV, maxV, ← hub12]
  exact maxQueryF_le (t1.upperBound + 1) t1 t2 0 lq rq 0 t1.upperBound A.length
    hlen hlzlen hlen2 hlzlen2 hfits (by omega) (by omega) hinv hinv2x hlex

/-! ### Reachable states -/

/-- States reachable from `build(A)` by valid `update` calls whose cap
satisfies `P` and valid `query_max` calls. -/
inductive Reachable (A : List Int) (P : Int → Prop) : SegmentTree → Prop
  | base {t} : new A = some t → Reachable A P t
  | update {t} (lq rq : Nat) (v : Int) : Reachable A P t → lq ≤ rq → rq ≤ t.upperBound →
      P v → Reachable A P (t.updateV lq rq v)
  | query {t} (lq rq : Nat) : Reachable A P t → lq ≤ rq → rq ≤ t.upperBound →
      Reachable A P ((t.maxV lq rq).2)

theorem reachable_wft {A : List Int} {P : Int → Prop} {t : SegmentTree}
    (h : Reachable A P t) : WFT A t := by
  induction h with
  | base hb => exact (new_spec hb).1
  | update lq rq v _ _ _ _ ihw => exact (updateV_spec ihw lq rq v).1
  | query lq rq _ _ _ ihw => exact (maxV_spec ihw lq rq).1

theorem reachable_weaken {A : List Int} {P : Int → Prop} {t : SegmentTree}
    (h : Reachable A P t) : Reachable A (fun _ => True) t := by
  induction h with
  | base hb => exact Reachable.base hb
  | update lq rq v _ h1 h2 _ ihw => exact Reachable.update lq rq v ihw h1 h2 trivial
  | query lq rq _ h1 h2 ihw => exact Reachable.query lq rq ihw h1 h2

theorem reachable_nonneg {A : List Int} {t : SegmentTree}
    (h : Reachable A (fun v => 0 ≤ v) t) (hA : ∀ x ∈ A, 0 ≤ x) :
    ∀ p, p ≤ t.upperBound → 0 ≤ logicalAt t p := by
  induction h with
  | base hb =>
    intro p hp
    obtain ⟨hw, habs⟩ := new_spec hb
    rw [habs p hp]
    have hplen : p < A.length := by
      have := hw.1
      omega
    rw [List.getD_eq_getElem A 0 hplen]
    exact hA _ (List.getElem_mem hplen)
  | update lq rq v hr h1 h2 hP ihw =>
    intro p hp
    have hw := reachable_wft hr
    obtain ⟨_, hub', habs⟩ := updateV_spec hw lq rq v
    rw [hub'] at hp
    rw [habs p hp]
    by_cases hin : lq ≤ p ∧ p ≤ rq
    · rw [if_pos hin]
      exact le_min hP (ihw p hp)
    · rw [if_neg hin]
      exact ihw p hp
  | query lq rq hr h1 h2 ihw =>
    intro p hp
    have hw := reachable_wft hr
    obtain ⟨_, hub', habs, _⟩ := maxV_spec hw lq rq
    rw [hub'] at hp
    rw [habs p hp]
    exact ihw p hp

/-- Any further sequence of valid calls, starting from an arbitrary state. -/
inductive Steps : SegmentTree → SegmentTree → Prop
  | refl (t) : Steps t t
  | update {t u} (lq rq : Nat) (v : Int) : lq ≤ rq → rq ≤ t.upperBound →
      Steps (t.updateV lq rq v) u → Steps t u
  | query {t u} (lq rq : Nat) : lq ≤ rq → rq ≤ t.upperBound →
      Steps ((t.maxV lq rq).2) u → Steps t u

theorem reachable_steps {A : List Int} {t u : SegmentTree}
    (h : Reachable A (fun _ => True) t) (hs : Steps t u) :
    Reachable A (fun _ => True) u := by
  induction hs with
  | refl t => exact h
  | update lq rq v h1 h2 _ ihs => exact ihs (Reachable.update lq rq v h h1 h2 trivial)
  | query lq rq h1 h2 _ ihs => exact ihs (Reachable.query lq rq h h1 h2)

theorem steps_logical_le {A : List Int} {t u : SegmentTree}
    (h : Reachable A (fun _ => True) t) (hs : Steps t u) :
    ∀ p, p ≤ t.upperBound → logicalAt u p ≤ logicalAt t p := by
  induction hs with
  | refl t => exact fun p _ => le_refl _
  | update lq rq v h1 h2 hrest ihs =>
    intro p hp
    have hw := reachable_wft h
    obtain ⟨_, hub', habs⟩ := updateV_spec hw lq rq v
    have hnext := Reachable.update lq rq v h h1 h2 trivial
    refine le_trans (ihs hnext p (by omega)) ?_
    rw [habs p hp]
    by_cases hin : lq ≤ p ∧ p ≤ rq
    · rw [if_pos hin]
      exact min_le_right _ _
    · rw [if_neg hin]
  | query lq rq h1 h2 hrest ihs =>
    intro p hp
    have hw := reachable_wft h
    obtain ⟨_, hub', habs, _⟩ := maxV_spec hw lq rq
    have hnext := Reachable.query lq rq h h1 h2
    refine le_trans (ihs hnext p (by omega)) ?_
    rw [habs p hp]

theorem steps_upperBound {t u : SegmentTree} (hs : Steps t u) :
    u.upperBound = t.upperBound := by
  induction hs with
  | refl t => rfl
  | update lq rq v h1 h2 _ ihs =>
    rw [ihs]
    exact (updateQueryF_shape _ _ _ _ _ _ _ _).2.2
  | query lq rq h1 h2 _ ihs =>
    rw [ihs]
    exact (maxQueryF_shape _ _ _ _ _ _ _).2.2

end SegmentTree

/-! ### The list maximum and the range maximum agree -/

theorem rmaxUp_shift (f : Nat → Int) (a : Nat) :
    ∀ s, rmaxUp f (a + 1) s = rmaxUp (fun p => f (p + 1)) a s := by
  intro s
  induction s with
  | zero => rfl
  | succ s ih =>
    simp only [rmaxUp, ih]
    have e : a + 1 + (s + 1) = a + (s + 1) + 1 := by omega
    rw [e]

theorem listMax_eq_rmax :
    ∀ (l : List Int) (a : Nat → Int), (∀ p, p < l.length → a p = l.getD p 0) → l ≠ [] →
      listMax l = rmax a 0 (l.length - 1) := by
  intro l
  induction l with
  | nil => intro a _ h; exact absurd rfl h
  | cons x xs ih =>
    intro a ha _
    by_cases hxs0 : xs = []
    · subst hxs0
      have e : ([x] : List Int).length - 1 = 0 := rfl
      rw [e, rmax_single, ha 0 (by simp)]
      rfl
    · have hpos : 0 < xs.length := List.length_pos.mpr hxs0
      have hsplit : rmax a 0 ((x :: xs).length - 1) =
          max (rmax a 0 0) (rmax a 1 ((x :: xs).length - 1)) := by
        refine rmax_split a (le_refl 0) ?_
        simp
        omega
      have hshift : rmax a 1 ((x :: xs).length - 1) =
          rmax (fun p => a (p + 1)) 0 (xs.length - 1) := by
        unfold rmax
        have e2 : (x :: xs).length - 1 - 1 = xs.length - 1 := by simp
        rw [e2]
        exact rmaxUp_shift a 0 (xs.length - 1)
      have hxsmax : listMax xs = rmax (fun p => a (p + 1)) 0 (xs.length - 1) := by
        refine ih (fun p => a (p + 1)) ?_ hxs0
        intro p hp
        show a (p + 1) = xs.getD p 0
        rw [ha (p + 1) (by simp; omega)]
        rfl
      have hhead : rmax a 0 0 = x := by
        rw [rmax_single]
        exact ha 0 (by simp)
      have hfold : listMax (x :: xs) = max x (listMax xs) := by
        obtain ⟨y, ys, hyy⟩ := List.exists_cons_of_ne_nil hxs0
        rw [hyy]
        show ys.foldl max (max x y) = max x (ys.foldl max y)
        exact List.foldl_assoc
      rw [hfold, hsplit, hshift, hhead, hxsmax]

/-! ### Further helpers for the claims -/

namespace SegmentTree

theorem maxQueryF_total {G : Nat} {t : SegmentTree} {c lq rq l r : Nat}
    (h1 : ¬ (r < lq ∨ rq < l)) (h2 : lq ≤ l ∧ r ≤ rq) :
    maxQueryF (G + 1) t c lq rq l r = ((propagate t c).treeAt c, propagate t c) := by
  unfold maxQueryF
  dsimp only
  rw [if_neg h1, if_pos h2]

theorem maxV_full {A : List Int} {t : SegmentTree} (hw : WFT A t) :
    (t.maxV 0 t.upperBound).1 = rmax (fun p => logicalAt t p) 0 t.upperBound := by
  obtain ⟨hub, hlen, hlzlen, hinv⟩ := hw
  have hpos : 1 ≤ A.length := by omega
  have hfits : fits A.length 0 0 t.upperBound := by
    have := fits_root hpos
    have e : A.length - 1 = t.upperBound := by omega
    rw [e] at this
    exact this
  obtain ⟨hP1, hP2, hP3⟩ := propagate_spec hlen hlzlen hfits
    (show t.upperBound - 0 < t.upperBound + 1 by omega) (by omega) hinv
  rw [maxV, maxQueryF_total (by omega) ⟨by omega, by omega⟩]
  dsimp only
  rw [hP2, ← rmax_absAt_eq_eff (t.upperBound + 1) t 0 0 t.upperBound (by omega) (by omega) hinv]
  rfl

theorem updateQueryF_clamp :
    ∀ fuel t c lq rq1 rq2 l r v, l ≤ r → r ≤ rq1 → r ≤ rq2 →
      updateQueryF fuel t c lq rq1 l r v = updateQueryF fuel t c lq rq2 l r v := by
  intro fuel
  induction fuel with
  | zero => intro t c lq rq1 rq2 l r v _ _ _; rfl
  | succ G ih =>
    intro t c lq rq1 rq2 l r v hlr h1 h2
    unfold updateQueryF
    dsimp only
    by_cases hno : r < lq
    · have o1 : r < lq ∨ rq1 < l := Or.inl hno
      have o2 : r < lq ∨ rq2 < l := Or.inl hno
      rw [if_pos o1, if_pos o2]
    · have c1 : ¬ (r < lq ∨ rq1 < l) := by omega
      have c2 : ¬ (r < lq ∨ rq2 < l) := by omega
      rw [if_neg c1, if_neg c2]
      by_cases htot : lq ≤ l
      · have d1 : lq ≤ l ∧ r ≤ rq1 := ⟨htot, h1⟩
        have d2 : lq ≤ l ∧ r ≤ rq2 := ⟨htot, h2⟩
        rw [if_pos d1, if_pos d2]
      · have d1 : ¬ (lq ≤ l ∧ r ≤ rq1) := by omega
        have d2 : ¬ (lq ≤ l ∧ r ≤ rq2) := by omega
        rw [if_neg d1, if_neg d2]
        have hm1 : l ≤ midIdx l r := by unfold midIdx; omega
        have hm2 : midIdx l r ≤ r := by unfold midIdx; omega
        have hx1 : midIdx l r ≤ rq1 := by omega
        have hx2 : midIdx l r ≤ rq2 := by omega
        have hy0 : midIdx l r + 1 ≤ r := by
          rcases Nat.lt_or_ge l r with hlt | hge
          · unfold midIdx
            omega
          · omega
        rw [ih (propagate t c) (leftChild c) lq rq1 rq2 l (midIdx l r) v hm1 hx1 hx2]
        rw [ih (updateQueryF G (propagate t c) (leftChild c) lq rq2 l (midIdx l r) v)
          (rightChild c) lq rq1 rq2 (midIdx l r + 1) r v hy0 h1 h2]

theorem maxQueryF_clamp :
    ∀ fuel t c lq rq1 rq2 l r, l ≤ r → r ≤ rq1 → r ≤ rq2 →
      maxQueryF fuel t c lq rq1 l r = maxQueryF fuel t c lq rq2 l r := by
  intro fuel
  induction fuel with
  | zero => intro t c lq rq1 rq2 l r _ _ _; rfl
  | succ G ih =>
    intro t c lq rq1 rq2 l r hlr h1 h2
    unfold maxQueryF
    dsimp only
    by_cases hno : r < lq
    · have o1 : r < lq ∨ rq1 < l := Or.inl hno
      have o2 : r < lq ∨ rq2 < l := Or.inl hno
      rw [if_pos o1, if_pos o2]
    · have c1 : ¬ (r < lq ∨ rq1 < l) := by omega
      have c2 : ¬ (r < lq ∨ rq2 < l) := by omega
      rw [if_neg c1, if_neg c2]
      by_cases htot : lq ≤ l
      · have d1 : lq ≤ l ∧ r ≤ rq1 := ⟨htot, h1⟩
        have d2 : lq ≤ l ∧ r ≤ rq2 := ⟨htot, h2⟩
        rw [if_pos d1, if_pos d2]
      · have d1 : ¬ (lq ≤ l ∧ r ≤ rq1) := by omega
        have d2 : ¬ (lq ≤ l ∧ r ≤ rq2) := by omega
        rw [if_neg d1, if_neg d2]
        have hm1 : l ≤ midIdx l r := by unfold midIdx; omega
        have hm2 : midIdx l r ≤ r := by unfold midIdx; omega
        have hx1 : midIdx l r ≤ rq1 := by omega
        have hx2 : midIdx l r ≤ rq2 := by omega
        have hy0 : midIdx l r + 1 ≤ r := by
          rcases Nat.lt_or_ge l r with hlt | hge
          · unfold midIdx
            omega
          · omega
        rw [ih (propagate t c) (leftChild c) lq rq1 rq2 l (midIdx l r) hm1 hx1 hx2]
        rw [ih (maxQueryF G (propagate t c) (leftChild c) lq rq2 l (midIdx l r)).2
          (rightChild c) lq rq1 rq2 (midIdx l r + 1) r hy0 h1 h2]

theorem rtnode_local_inv {n : Nat} {t : SegmentTree} {c l r : Nat}
    (hrt : RTNode n c l r) :
    ∀ F, n - 1 < F → Inv F t 0 0 (n - 1) →
      ∃ G, r - l < G ∧ Inv G t c l r := by
  induction hrt with
  | root =>
    intro F hF hinv
    exact ⟨F, by omega, hinv⟩
  | left hparent hlt ihp =>
    intro F hF hinv
    obtain ⟨G, hG, hinvp⟩ := ihp F hF hinv
    cases G with
    | zero => omega
    | succ G' =>
      obtain ⟨_, _, _, h4, _⟩ := (Inv_succ G' t _ _ _).mp hinvp |>.2 hlt
      exact ⟨G', by unfold midIdx; omega, h4⟩
  | right hparent hlt ihp =>
    intro F hF hinv
    obtain ⟨G, hG, hinvp⟩ := ihp F hF hinv
    cases G with
    | zero => omega
    | succ G' =>
      obtain ⟨_, _, _, _, h5⟩ := (Inv_succ G' t _ _ _).mp hinvp |>.2 hlt
      exact ⟨G', by unfold midIdx; omega, h5⟩

theorem maxV_singleton {A : List Int} {t : SegmentTree} {p : Nat} (hw : WFT A t)
    (hnn : ∀ q, q ≤ t.upperBound → -1 ≤ logicalAt t q) (hp : p ≤ t.upperBound) :
    (t.maxV p p).1 = logicalAt t p := by
  rw [maxV_result hw (le_refl p) hnn, if_neg (by omega), min_eq_right hp, rmax_single]

end SegmentTree

/-! ### Claim theorems -/

open SegmentTree

/-- A tree value to use as `Option.getD` default in concrete instances. -/
def tree0 (A : List Int) : SegmentTree :=
  (SegmentTree.new A).getD ⟨[], 0, []⟩

/-- C1 (counterexample): on the non-negative input `[0, 0]`, the update
`update(0, 0, -5)` must, per the claim, make `query_max(0,0)` return
`min(previous, -5) = -5`; the code returns the sentinel `-1` instead, because
the no-overlap branch of the singleton query contributes `-1 > -5`. -/
theorem c1_counterexample :
    (∀ x ∈ ([0, 0] : List Int), 0 ≤ x) ∧
    ((tree0 [0, 0]).maxV 0 0).1 = 0 ∧
    (((tree0 [0, 0]).updateV 0 0 (-5)).maxV 0 0).1 = -1 ∧
    (((tree0 [0, 0]).updateV 0 0 (-5)).maxV 0 0).1 ≠
      min (((tree0 [0, 0]).maxV 0 0).1) (-5) := by
  refine ⟨by decide, by decide, by decide, by decide⟩

/-- C1 (amended): for every tree built from a non-negative array and reached
by clamp updates with non-negative caps, after `update(l, r, cap)` with
`cap ≥ 0` the value of `query_max(p, p)` equals `min(cap, previous)` for
`p ∈ [l, r]` and is unchanged otherwise.  (The original claim, for arbitrary
caps, fails because caps below the `-1` sentinel are not reported by
singleton queries.) -/
theorem c1_clamped_update (A : List Int) (t : SegmentTree) (l r p : Nat) (cap : Int)
    (hre : Reachable A (fun x => 0 ≤ x) t) (hA : ∀ x ∈ A, 0 ≤ x) (hcap : 0 ≤ cap)
    (hlr : l ≤ r) (hr : r ≤ t.upperBound) (hp : p ≤ t.upperBound) :
    ((t.updateV l r cap).maxV p p).1 =
      if l ≤ p ∧ p ≤ r then min cap ((t.maxV p p).1) else (t.maxV p p).1 := by
  have hw := reachable_wft hre
  have hnn : ∀ q, q ≤ t.upperBound → -1 ≤ logicalAt t q := by
    intro q hq
    have := reachable_nonneg hre hA q hq
    omega
  have hq1 : (t.maxV p p).1 = logicalAt t p := maxV_singleton hw hnn hp
  obtain ⟨hw', hub', habs⟩ := updateV_spec hw l r cap
  have hre' : Reachable A (fun x => 0 ≤ x) (t.updateV l r cap) :=
    Reachable.update l r cap hre hlr hr hcap
  have hnn' : ∀ q, q ≤ (t.updateV l r cap).upperBound →
      -1 ≤ logicalAt (t.updateV l r cap) q := by
    intro q hq
    have := reachable_nonneg hre' hA q hq
    omega
  have hq2 : ((t.updateV l r cap).maxV p p).1 = logicalAt (t.updateV l r cap) p :=
    maxV_singleton hw' hnn' (by omega)
  rw [hq2, habs p hp, hq1]

/-- C1 witness: a concrete reachable instance of the amended claim. -/
theorem c1_witness :
    ((∀ x ∈ ([3, 7] : List Int), 0 ≤ x) ∧ (0 : Int) ≤ 1 ∧ (0 : Nat) ≤ 0 ∧
      0 ≤ (tree0 [3, 7]).upperBound) ∧
    (((tree0 [3, 7]).updateV 0 0 1).maxV 0 0).1 =
      if 0 ≤ 0 ∧ 0 ≤ 0 then min 1 (((tree0 [3, 7]).maxV 0 0).1)
      else ((tree0 [3, 7]).maxV 0 0).1 :=
  ⟨⟨by decide, by decide, by decide, by decide⟩,
    c1_clamped_update [3, 7] (tree0 [3, 7]) 0 0 0 1
      (Reachable.base (by decide)) (by decide) (by decide) (by decide) (by decide) (by decide)⟩

/-- C2: for every non-empty integer sequence `A`, `query_max(0, len(A)-1)`
directly after `build(A)` returns `max(A)` (the full-range query hits the
total-overlap case at the root, so this holds for arbitrary integers). -/
theorem c2_build_full_query (A : List Int) (t : SegmentTree)
    (h : SegmentTree.new A = some t) :
    (t.maxV 0 (A.length - 1)).1 = listMax A := by
  obtain ⟨hw, habs⟩ := new_spec h
  have hub : t.upperBound = A.length - 1 := by
    have := hw.1
    omega
  have hAne : A ≠ [] := by
    intro he
    subst he
    exact Option.noConfusion h
  have hlm := listMax_eq_rmax A (fun p => logicalAt t p)
    (fun p hp => habs p (by omega)) hAne
  rw [← hub, maxV_full hw, hlm, hub]

/-- C2 witness: scenario 1 of the spec, `build [3,1,4,1,5,9,2,6]` and
`query_max(0,7) = 9`. -/
theorem c2_witness :
    ((tree0 [3, 1, 4, 1, 5, 9, 2, 6]).maxV 0 7).1 = listMax [3, 1, 4, 1, 5, 9, 2, 6] ∧
    ((tree0 [3, 1, 4, 1, 5, 9, 2, 6]).maxV 0 7).1 = 9 :=
  ⟨c2_build_full_query [3, 1, 4, 1, 5, 9, 2, 6] (tree0 [3, 1, 4, 1, 5, 9, 2, 6]) (by decide),
    by decide⟩

/-- C3 (counterexample): a `query_max` call whose right bound `100` lies far
outside `[0, 7]` does not fail: it succeeds and returns `9`, the max of the
whole array — out-of-range bounds are silently accepted, contradicting the
claim that such calls fail with an invalid-argument error. -/
theorem c3_counterexample :
    (SegmentTree.new [3, 1, 4, 1, 5, 9, 2, 6]).bind
      (fun t => (t.maxQ 0 100).map Prod.fst) = some 9 := by
  decide

/-- C3 (amended): only `left_query > right_query` makes `update`/`query_max`
fail (the assertion panic, before any mutation); a right bound at or above
`upper_bound` is not rejected — the call behaves exactly as if the bound were
clamped to `upper_bound`. -/
theorem c3_bounds_behaviour (t : SegmentTree) (l1 r1 l2 r2 : Nat) (v : Int)
    (hbad : r1 < l1) (hclamp : t.upperBound ≤ r2) :
    (t.update l1 r1 v = none ∧ t.maxQ l1 r1 = none) ∧
    (t.updateV l2 r2 v = t.updateV l2 t.upperBound v ∧
     t.maxV l2 r2 = t.maxV l2 t.upperBound) := by
  refine ⟨⟨?_, ?_⟩, ?_, ?_⟩
  · unfold SegmentTree.update
    rw [if_neg (by omega)]
  · unfold maxQ
    rw [if_neg (by omega)]
  · exact updateQueryF_clamp (t.upperBound + 1) t 0 l2 r2 t.upperBound 0 t.upperBound v
      (by omega) hclamp (le_refl _)
  · exact maxQueryF_clamp (t.upperBound + 1) t 0 l2 r2 t.upperBound 0 t.upperBound
      (by omega) hclamp (le_refl _)

/-- C3 witness: concrete instance with an inverted range and an oversized
right bound. -/
theorem c3_witness :
    ((2 : Nat) < 5 ∧ (tree0 [3, 1, 4]).upperBound ≤ 100) ∧
    (((tree0 [3, 1, 4]).update 5 2 7 = none ∧ (tree0 [3, 1, 4]).maxQ 5 2 = none) ∧
     ((tree0 [3, 1, 4]).updateV 0 100 7 =
        (tree0 [3, 1, 4]).updateV 0 (tree0 [3, 1, 4]).upperBound 7 ∧
      (tree0 [3, 1, 4]).maxV 0 100 =
        (tree0 [3, 1, 4]).maxV 0 (tree0 [3, 1, 4]).upperBound)) :=
  ⟨⟨by decide, by decide⟩, c3_bounds_behaviour (tree0 [3, 1, 4]) 5 2 0 100 7 (by decide) (by decide)⟩

/-- C4: in every reachable state, a pending value `v` at a recursion-tree
node is at most any pending value `w` at one of its children, so when
`propagate` discharges `v` and overwrites the child's pending slot it never
replaces an existing pending value with a larger one. -/
theorem c4_pending_monotone (A : List Int) (P : Int → Prop) (t : SegmentTree)
    (c l r x : Nat) (v w : Int)
    (hre : Reachable A P t) (hrt : RTNode A.length c l r) (hlr : l < r)
    (hx : x = SegmentTree.leftChild c ∨ x = SegmentTree.rightChild c)
    (hv : t.lazyAt c = some v) (hw : t.lazyAt x = some w) :
    v ≤ w := by
  have hwft := reachable_wft hre
  obtain ⟨hub, _, _, hinv⟩ := hwft
  have hinv' : Inv (t.upperBound + 1) t 0 0 (A.length - 1) := by
    have e : A.length - 1 = t.upperBound := by omega
    rw [e]
    exact hinv
  obtain ⟨G, hG, hinvc⟩ := rtnode_local_inv hrt (t.upperBound + 1) (by omega) hinv'
  cases G with
  | zero => omega
  | succ G' =>
    have h1 := ((Inv_succ G' t c l r).mp hinvc).1 v hv
    obtain ⟨_, h2, h3, _, _⟩ := ((Inv_succ G' t c l r).mp hinvc).2 hlr
    rcases hx with he | he
    · subst he
      exact le_trans h1 (h2 w hw)
    · subst he
      exact le_trans h1 (h3 w hw)

/-- C4 witness: after `build [10,10,10,10]`, `update(0,1,5)` and
`update(0,3,2)`, node 1 (range `[0,1]`) holds pending `2` while its child,
node 3, still holds pending `5`, and indeed `2 ≤ 5`. -/
theorem c4_witness :
    (((tree0 [10, 10, 10, 10]).updateV 0 1 5).updateV 0 3 2).lazyAt 1 = some 2 ∧
    (((tree0 [10, 10, 10, 10]).updateV 0 1 5).updateV 0 3 2).lazyAt 3 = some 5 ∧
    (2 : Int) ≤ 5 :=
  ⟨by decide, by decide,
    c4_pending_monotone [10, 10, 10, 10] (fun _ => True)
      (((tree0 [10, 10, 10, 10]).updateV 0 1 5).updateV 0 3 2) 1 0 1 3 2 5
      (Reachable.update 0 3 2
        (Reachable.update 0 1 5 (Reachable.base (by decide)) (by decide) (by decide) trivial)
        (by decide) (by decide) trivial)
      (RTNode.left RTNode.root (by decide)) (by decide) (Or.inl (by decide))
      (by decide) (by decide)⟩

/-- C5: if `cap2` is at least the value just returned by
`query_max(l, r)`, then `update(l, r, cap2)` is a no-op: every subsequent
`query_max` on any valid range returns the same value as without the update
(for arbitrary integer contents). -/
theorem c5_larger_cap_no_op (A : List Int) (t : SegmentTree) (l r lq rq : Nat) (cap2 : Int)
    (hre : Reachable A (fun _ => True) t)
    (hlr : l ≤ r) (hr : r ≤ t.upperBound)
    (hcap : (t.maxV l r).1 ≤ cap2)
    (hq : lq ≤ rq) (hq2 : rq ≤ t.upperBound) :
    ((t.updateV l r cap2).maxV lq rq).1 = (t.maxV lq rq).1 := by
  have hw := reachable_wft hre
  obtain ⟨hw', hub', habs⟩ := updateV_spec hw l r cap2
  obtain ⟨_, _, _, hdom⟩ := maxV_spec hw l r
  have heq : ∀ p, p ≤ t.upperBound → logicalAt (t.updateV l r cap2) p = logicalAt t p := by
    intro p hp
    rw [habs p hp]
    by_cases hin : l ≤ p ∧ p ≤ r
    · rw [if_pos hin]
      exact min_eq_right (le_trans (hdom p hp hin.1 hin.2) hcap)
    · rw [if_neg hin]
  refine le_antisymm ?_ ?_
  · exact maxV_le_mono hw' hw lq rq (fun p hp => le_of_eq (heq p (by omega)))
  · exact maxV_le_mono hw hw' lq rq (fun p hp => le_of_eq (heq p hp).symm)

/-- C5 witness: scenario 4 of the spec, `build [42]`, `update(0,0,100)` is a
no-op for `query_max(0,0)`. -/
theorem c5_witness :
    (((tree0 [42]).maxV 0 0).1 ≤ 100) ∧
    (((tree0 [42]).updateV 0 0 100).maxV 0 0).1 = ((tree0 [42]).maxV 0 0).1 :=
  ⟨by decide,
    c5_larger_cap_no_op [42] (tree0 [42]) 0 0 0 0 100 (Reachable.base (by decide))
      (by decide) (by decide) (by decide) (by decide) (by decide)⟩

/-- C6 (counterexample): on the non-negative input `[5, 5]`, the update
`update(0, 0, -5)` lowers the logical value at index 0 to `-5`, but
`query_max(0, 0)` returns the sentinel `-1`, not the true maximum `-5`;
the claim's hypothesis (non-negative input array) is satisfied, yet the
query is wrong because the update cap was negative. -/
theorem c6_counterexample :
    (∀ x ∈ ([5, 5] : List Int), 0 ≤ x) ∧
    logicalAt ((tree0 [5, 5]).updateV 0 0 (-5)) 0 = -5 ∧
    (((tree0 [5, 5]).updateV 0 0 (-5)).maxV 0 0).1 = -1 ∧
    (((tree0 [5, 5]).updateV 0 0 (-5)).maxV 0 0).1 ≠
      logicalAt ((tree0 [5, 5]).updateV 0 0 (-5)) 0 := by
  refine ⟨by decide, by decide, by decide, by decide⟩

/-- C6 (amended): every no-overlap call returns the sentinel `-1`, and
provided the input array elements AND all update caps are non-negative
(so every logical value stays at or above the sentinel), `query_max(l, r)`
on a valid range equals the true maximum of the logical array over `[l, r]`. -/
theorem c6_sentinel (A : List Int) (t : SegmentTree) (lq rq : Nat)
    (hre : Reachable A (fun x => 0 ≤ x) t) (hA : ∀ x ∈ A, 0 ≤ x)
    (hq : lq ≤ rq) (hub : rq ≤ t.upperBound) :
    (∀ (fuel : Nat) (u : SegmentTree) (c l r : Nat), r < lq ∨ rq < l →
      (SegmentTree.maxQueryF (fuel + 1) u c lq rq l r).1 = -1) ∧
    (t.maxV lq rq).1 = rmax (fun p => logicalAt t p) lq rq := by
  constructor
  · intro fuel u c l r h
    unfold maxQueryF
    dsimp only
    rw [if_pos h]
  · have hw := reachable_wft hre
    have hnn : ∀ q, q ≤ t.upperBound → -1 ≤ logicalAt t q := by
      intro q hqq
      have := reachable_nonneg hre hA q hqq
      omega
    rw [maxV_result hw hq hnn, if_neg (by omega), min_eq_right hub]

/-- C6 witness: a concrete instance of the amended claim after a
non-negative clamp. -/
theorem c6_witness :
    ((∀ x ∈ ([3, 9, 4] : List Int), 0 ≤ x) ∧ (0 : Nat) ≤ 2 ∧
      2 ≤ ((tree0 [3, 9, 4]).updateV 0 2 5).upperBound) ∧
    ((∀ (fuel : Nat) (u : SegmentTree) (c l r : Nat), r < 0 ∨ 2 < l →
      (SegmentTree.maxQueryF (fuel + 1) u c 0 2 l r).1 = -1) ∧
    (((tree0 [3, 9, 4]).updateV 0 2 5).maxV 0 2).1 =
      rmax (fun p => logicalAt ((tree0 [3, 9, 4]).updateV 0 2 5) p) 0 2) :=
  ⟨⟨by decide, by decide, by decide⟩,
    c6_sentinel [3, 9, 4] ((tree0 [3, 9, 4]).updateV 0 2 5) 0 2
      (Reachable.update 0 2 5 (Reachable.base (by decide)) (by decide) (by decide) (by decide))
      (by decide) (by decide) (by decide)⟩

/-- C7: along any further sequence of valid updates and queries, the value
returned by `query_max(l, r)` for a fixed valid range never increases. -/
theorem c7_monotone_non_increase (A : List Int) (P : Int → Prop) (t u : SegmentTree)
    (l r : Nat) (hre : Reachable A P t) (hs : Steps t u)
    (hlr : l ≤ r) (hr : r ≤ t.upperBound) :
    (u.maxV l r).1 ≤ (t.maxV l r).1 := by
  have hre1 := reachable_weaken hre
  have hreu := reachable_steps hre1 hs
  have hwt := reachable_wft hre1
  have hwu := reachable_wft hreu
  have hub := steps_upperBound hs
  refine maxV_le_mono hwu hwt l r ?_
  intro p hp
  exact steps_logical_le hre1 hs p (by omega)

/-- C7 witness: after `build [5]` and `update(0,0,3)`, the query value drops
from 5 to 3. -/
theorem c7_witness :
    ((((tree0 [5]).updateV 0 0 3).maxV 0 0).1 = 3 ∧ (((tree0 [5]).maxV 0 0).1 = 5)) ∧
    (((tree0 [5]).updateV 0 0 3).maxV 0 0).1 ≤ ((tree0 [5]).maxV 0 0).1 :=
  ⟨⟨by decide, by decide⟩,
    c7_monotone_non_increase [5] (fun _ => True) (tree0 [5]) ((tree0 [5]).updateV 0 0 3) 0 0
      (Reachable.base (by decide))
      (Steps.update 0 0 3 (by decide) (by decide) (Steps.refl _))
      (by decide) (by decide)⟩

/-- C8: every node index of the recursive range splitting over `[0, n-1]`
starting at the root slot is below the `4 * n` allocated slots, and the
child accesses `2j+1`, `2j+2` performed by `propagate` under its guard
`j < tree.len()/2 - 1` also stay below `4 * n`. -/
theorem c8_all_indices_in_bounds (n : Nat) (hn : 1 ≤ n) :
    (∀ j ∈ nodeIndicesF n 0 (n - 1) 0, j < 4 * n) ∧
    (∀ j, j < 4 * n / 2 - 1 →
      SegmentTree.leftChild j < 4 * n ∧ SegmentTree.rightChild j < 4 * n) := by
  constructor
  · intro j hj
    exact nodeIndicesF_bound n 0 0 (n - 1) (fits_root hn) j hj
  · intro j hj
    unfold SegmentTree.leftChild SegmentTree.rightChild
    omega

/-- C8 witness: the bound at `n = 5` (not a power of two). -/
theorem c8_witness :
    1 ≤ 5 ∧
    ((∀ j ∈ nodeIndicesF 5 0 (5 - 1) 0, j < 4 * 5) ∧
     (∀ j, j < 4 * 5 / 2 - 1 →
       SegmentTree.leftChild j < 4 * 5 ∧ SegmentTree.rightChild j < 4 * 5)) :=
  ⟨by decide, c8_all_indices_in_bounds 5 (by decide)⟩

/-- C9: `build` on the empty array fails (the `len - 1` underflow panic,
modelled as `none`) and produces no tree; on every non-empty array it
succeeds with a tree covering `[0, n-1]`, i.e. `upper_bound + 1 = n`. -/
theorem c9_build_empty_vs_nonempty (A : List Int) :
    (SegmentTree.new A = none ↔ A = []) ∧
    (∀ t, SegmentTree.new A = some t → t.upperBound + 1 = A.length) := by
  constructor
  · constructor
    · intro h
      cases A with
      | nil => rfl
      | cons a l =>
        unfold SegmentTree.new at h
        exact Option.noConfusion h
    · intro h
      subst h
      rfl
  · intro t ht
    exact (new_spec ht).1.1

/-- C9 witness: the empty array is rejected; `[7, 3]` builds a tree over
`[0, 1]`. -/
theorem c9_witness :
    (SegmentTree.new ([] : List Int) = none) ∧
    (tree0 [7, 3]).upperBound + 1 = 2 :=
  ⟨(c9_build_empty_vs_nonempty []).1.mpr rfl,
    (c9_build_empty_vs_nonempty [7, 3]).2 (tree0 [7, 3]) (by decide)⟩

/-- C10: a `query_max` call mutates only the pending bookkeeping: every
subsequent `query_max` on any valid range returns exactly the value it would
have returned without the intervening query. -/
theorem c10_query_preserves_results (A : List Int) (P : Int → Prop) (t : SegmentTree)
    (lq rq lp rp : Nat) (hre : Reachable A P t)
    (h1 : lq ≤ rq) (h2 : rq ≤ t.upperBound)
    (h3 : lp ≤ rp) (h4 : rp ≤ t.upperBound) :
    (((t.maxV lq rq).2).maxV lp rp).1 = (t.maxV lp rp).1 := by
  have hre1 := reachable_weaken hre
  have hw := reachable_wft hre1
  have hre2 := Reachable.query lq rq hre1 h1 h2
  have hw2 := reachable_wft hre2
  obtain ⟨_, hub', habs, _⟩ := maxV_spec hw lq rq
  refine le_antisymm ?_ ?_
  · exact maxV_le_mono hw2 hw lp rp (fun p hp => le_of_eq (habs p (by omega)))
  · exact maxV_le_mono hw hw2 lp rp (fun p hp => le_of_eq (habs p hp).symm)

/-- C10 witness: after `build [4, 8, 2]` and `update(0, 2, 6)`, a query on
`[0, 0]` (which discharges pending state) does not change the result of a
subsequent query on `[0, 2]`. -/
theorem c10_witness :
    ((((((tree0 [4, 8, 2]).updateV 0 2 6).maxV 0 0).2).maxV 0 2).1 = 6) ∧
    (((((tree0 [4, 8, 2]).updateV 0 2 6).maxV 0 0).2).maxV 0 2).1 =
      (((tree0 [4, 8, 2]).updateV 0 2 6).maxV 0 2).1 :=
  ⟨by decide,
    c10_query_preserves_results [4, 8, 2] (fun _ => True)
      ((tree0 [4, 8, 2]).updateV 0 2 6) 0 0 0 2
      (Reachable.update 0 2 6 (Reachable.base (by decide)) (by decide) (by decide) trivial)
      (by decide) (by decide) (by decide) (by decide)⟩
